import Mathlib

/-!
Verification development for the repogrep core: a shallow embedding of the
incremental indexing pipeline (src/indexer.ts together with src/util.ts and
src/db.ts) and of the hybrid retrieval engine (src/search.ts), with theorems
about the behaviour of those functions.

Modelling conventions:
* File contents are byte lists (`Bytes`); JavaScript numbers that only ever
  hold exact values are modelled as `Nat`/`Int`/`ℚ`.
* The SHA-256 digest of `hashBuffer` is not re-implemented; the digest is
  produced by an abstract function `Ctx.hashFn : Bytes → Bytes` threaded
  through the indexer exactly where `crypto.createHash('sha256')` is used.
  Collision-freeness (injectivity) is an explicit hypothesis where a claim
  needs it.
* The external engines (SQLite FTS5, LanceDB nearest-neighbour search, the
  MiniLM embedding service) are black boxes per the spec; they appear as
  oracle fields of `SearchCtx`/`Ctx`, and every call the TypeScript code
  makes to them is recorded in an explicit access trace.
* A JavaScript number that can be non-finite is modelled as `Option ℚ`
  (`none` = non-finite) exactly where the source tests `Number.isFinite`;
  an optional (`possibly undefined`) number is likewise `Option ℚ`.
-/

deriving instance DecidableEq for Except

namespace RepoGrep

/-- Raw file contents: a list of byte values. -/
abbrev Bytes := List Nat

/-- util.ts: `MAX_INDEXED_BYTES = 64 * 1024`. -/
def MAX_INDEXED_BYTES : Nat := 64 * 1024

/-- util.ts `getFilename`: `path.basename` of a relative path — the part
after the last path separator. -/
def getFilename (relativeFilePath : String) : String :=
  String.mk ((relativeFilePath.data.reverse.takeWhile
    (fun c => !(c == '/'))).reverse)

/-- Scan of the sampled bytes in util.ts `isBinaryBuffer`: returns the count of
suspicious bytes together with whether a null byte was seen (the loop
returns immediately at the first null byte, so the count is only meaningful
when no null byte occurs). -/
def binaryScan : Bytes → Nat × Bool
  | [] => (0, false)
  | byte :: rest =>
      if byte = 0 then (0, true)
      else
        let (suspicious, sawNull) := binaryScan rest
        (if byte < 7 ∨ (byte > 13 ∧ byte < 32) ∨ byte = 255 then suspicious + 1
         else suspicious, sawNull)

/-- util.ts `isBinaryBuffer`: sample up to the first 1024 bytes; any null byte
classifies binary immediately, otherwise binary iff the suspicious-byte count
exceeds 30% of the sample. The source's ratio test
`suspicious / sample.length > 0.3` is stated here in exact integer arithmetic
(`10 * suspicious > 3 * length`); with denominators bounded by 1024 the two
comparisons coincide, also under double-precision evaluation. -/
def isBinaryBuffer (buffer : Bytes) : Bool :=
  if buffer.length = 0 then false
  else
    let sample := buffer.take 1024
    let scan := binaryScan sample
    if scan.2 then true
    else decide (10 * scan.1 > 3 * sample.length)

/-- indexer.ts `toVectorId`: composite vector-store key `repo:path`. -/
def toVectorId (repo filePath : String) : String :=
  repo ++ ":" ++ filePath

/-! ### Search layer (src/search.ts) -/

/-- search.ts `SearchMode`. -/
inductive SearchMode where
  | keyword
  | semantic
  | hybrid
deriving DecidableEq, Repr

/-- search.ts `SearchOptions`. Weights and limit are optional, with the
defaults applied inside the search functions exactly as in the source. -/
structure SearchOptions where
  repo : Option String := none
  limit : Option Nat := none
  semanticWeight : Option ℚ := none
  keywordWeight : Option ℚ := none
deriving DecidableEq, Repr

/-- search.ts `SearchResult`. `keywordScore`/`semanticScore` are optional
fields exactly as in the TypeScript interface. -/
structure SearchResult where
  repo : String
  path : String
  filename : String
  snippet : Option String
  keywordScore : Option ℚ := none
  semanticScore : Option ℚ := none
  score : ℚ
  mode : SearchMode
deriving DecidableEq, Repr

/-- search.ts `KeywordRow`: a row produced by the FTS engine. `bm25` is a JS
number; `none` models a non-finite value (the only property of the value the
source inspects beyond its magnitude is `Number.isFinite`). -/
structure KeywordRow where
  repo : String
  path : String
  filename : String
  snippet : Option String
  bm25 : Option ℚ
deriving DecidableEq, Repr

/-- search.ts `SemanticRow`: a row produced by the vector store. `_distance`
and `score` are optional fields exactly as in the TypeScript interface. -/
structure SemanticRow where
  repo : String
  path : String
  filename : String
  mtime_ms : Int
  size_bytes : Nat
  hash : Bytes
  _distance : Option ℚ := none
  score : Option ℚ := none
deriving DecidableEq, Repr

/-- search.ts `normalizeKeywordScore`: 0 for a non-finite rank, otherwise
`1 / (1 + max(bm25, 0))`. -/
def normalizeKeywordScore (bm25 : Option ℚ) : ℚ :=
  match bm25 with
  | none => 0
  | some b => 1 / (1 + max b 0)

/-- search.ts `normalizeSemanticScore`: 0 for a missing (`undefined`)
distance, otherwise `1 / (1 + max(distance, 0))`. -/
def normalizeSemanticScore (distance : Option ℚ) : ℚ :=
  match distance with
  | none => 0
  | some d => 1 / (1 + max d 0)

/-- One store/service interaction performed by the search layer. Every call
the TypeScript search functions make to SQLite, LanceDB or the embedding
service is recorded as one of these events, in program order. -/
inductive StoreAccess where
  | sqliteOpen
  | sqliteQuery
  | lanceOpen
  | lanceQuery
  | embedCall
deriving DecidableEq, Repr

/-- External engines used by the search layer, modelled as oracles (the spec
treats BM25 and vector-distance internals as black boxes). `ftsQuery` is the
FTS query of `keywordSearch` (query, repo filter, limit); `vectorQuery` is
the nearest-neighbour query of `semanticSearch` (embedding, repo filter,
limit); `snippetLookup` is the per-row snippet re-query of `semanticSearch`
(repo, path, query — `none` means no matching FTS row). -/
structure SearchCtx where
  ftsQuery : String → Option String → Nat → List KeywordRow
  embedQuery : String → List ℚ
  vectorQuery : List ℚ → Option String → Nat → List SemanticRow
  snippetLookup : String → String → String → Option (Option String)

/-- search.ts `keywordSearch`, returning the results together with the trace
of store accesses it performs (`getSqliteDb`, then the prepared FTS query). -/
def keywordSearch (ctx : SearchCtx) (query : String) (options : SearchOptions) :
    List SearchResult × List StoreAccess :=
  let limit := options.limit.getD 20
  let rows := ctx.ftsQuery query options.repo limit
  (rows.map (fun row =>
    let keywordScore := normalizeKeywordScore row.bm25
    { repo := row.repo
      path := row.path
      filename := row.filename
      snippet := row.snippet
      keywordScore := some keywordScore
      score := keywordScore
      mode := SearchMode.keyword }),
   [StoreAccess.sqliteOpen, StoreAccess.sqliteQuery])

/-- search.ts `semanticSearch`, returning the results together with the trace
of store accesses (`getLanceTable` and `getSqliteDb`, the query embedding,
the vector search, then one snippet re-query per result row). -/
def semanticSearch (ctx : SearchCtx) (query : String) (options : SearchOptions) :
    List SearchResult × List StoreAccess :=
  let limit := options.limit.getD 20
  let queryEmbedding := ctx.embedQuery query
  let results := ctx.vectorQuery queryEmbedding options.repo limit
  (results.map (fun row =>
    let distance := row._distance <|> row.score
    let semanticScore := normalizeSemanticScore distance
    let snippetRow := ctx.snippetLookup row.repo row.path query
    { repo := row.repo
      path := row.path
      filename := row.filename
      snippet := snippetRow.join
      semanticScore := some semanticScore
      score := semanticScore
      mode := SearchMode.semantic }),
   [StoreAccess.lanceOpen, StoreAccess.sqliteOpen, StoreAccess.embedCall,
    StoreAccess.lanceQuery] ++ results.map (fun _ => StoreAccess.sqliteQuery))

/-- Key of the `combined` map of search.ts `hybridSearch`:
the template string `repo:path`. -/
def hybridKey (r : SearchResult) : String :=
  r.repo ++ ":" ++ r.path

/-- Lookup in the insertion-ordered association list modelling the JS `Map`. -/
def mapGet (m : List (String × SearchResult)) (k : String) : Option SearchResult :=
  (m.find? (fun p => p.1 == k)).map (fun p => p.2)

/-- `Map.set`: overwrite in place if the key is present, else append. -/
def mapSet (m : List (String × SearchResult)) (k : String) (v : SearchResult) :
    List (String × SearchResult) :=
  if m.any (fun p => p.1 == k) then
    m.map (fun p => if p.1 == k then (k, v) else p)
  else
    m ++ [(k, v)]

/-- First loop of `hybridSearch`: seed the combined map from the keyword
results, weighting each score by `keywordWeight`. -/
def hybridKeywordLoop (keywordWeight : ℚ) (keywordResults : List SearchResult)
    (combined : List (String × SearchResult)) : List (String × SearchResult) :=
  match keywordResults with
  | [] => combined
  | result :: rest =>
      hybridKeywordLoop keywordWeight rest
        (mapSet combined (hybridKey result)
          { result with
            score := result.keywordScore.getD 0 * keywordWeight
            mode := SearchMode.hybrid })

/-- Second loop of `hybridSearch`: fold the semantic results into the map —
an existing entry gains the weighted semantic contribution, a new key is
appended with `keywordScore = 0`. -/
def hybridSemanticLoop (semanticWeight : ℚ) (semanticResults : List SearchResult)
    (combined : List (String × SearchResult)) : List (String × SearchResult) :=
  match semanticResults with
  | [] => combined
  | result :: rest =>
      let key := hybridKey result
      let semanticContribution := result.semanticScore.getD 0 * semanticWeight
      let combined :=
        match mapGet combined key with
        | some existing =>
            mapSet combined key
              { existing with
                semanticScore := result.semanticScore
                score := existing.score + semanticContribution }
        | none =>
            combined ++ [(key,
              { result with
                keywordScore := some 0
                score := semanticContribution
                mode := SearchMode.hybrid })]
      hybridSemanticLoop semanticWeight rest combined

/-- Descending-by-score order used by the final `sort` of `hybridSearch`
(the comparator `(a, b) => b.score - a.score`). -/
def scoreGe (a b : SearchResult) : Prop := b.score ≤ a.score

instance : DecidableRel scoreGe := fun a b => inferInstanceAs (Decidable (b.score ≤ a.score))

instance : IsTotal SearchResult scoreGe := ⟨fun a b => le_total b.score a.score⟩

instance : IsTrans SearchResult scoreGe := ⟨fun _ _ _ h1 h2 => le_trans h2 h1⟩

/-- search.ts `hybridSearch`: run both sub-searches, union keyed by
`repo:path`, sort descending by score (stable, as `Array.prototype.sort`),
truncate to the limit. Returns results and the combined access trace. -/
def hybridSearch (ctx : SearchCtx) (query : String) (options : SearchOptions) :
    List SearchResult × List StoreAccess :=
  let semanticWeight := options.semanticWeight.getD (3 / 5)
  let keywordWeight := options.keywordWeight.getD (2 / 5)
  let keywordRes := keywordSearch ctx query options
  let semanticRes := semanticSearch ctx query options
  let combined :=
    hybridSemanticLoop semanticWeight semanticRes.1
      (hybridKeywordLoop keywordWeight keywordRes.1 [])
  ((List.insertionSort scoreGe (combined.map (fun p => p.2))).take
      (options.limit.getD 20),
   keywordRes.2 ++ semanticRes.2)

/-- search.ts `search`: dispatch on the mode. No validation of the query is
performed here. -/
def search (ctx : SearchCtx) (query : String) (mode : SearchMode)
    (options : SearchOptions) : List SearchResult × List StoreAccess :=
  match mode with
  | SearchMode.keyword => keywordSearch ctx query options
  | SearchMode.semantic => semanticSearch ctx query options
  | SearchMode.hybrid => hybridSearch ctx query options

/-! ### CLI search command (src/cli.ts) -/

/-- JS `String.prototype.trim` on ASCII input: strip leading and trailing
whitespace characters. -/
def jsTrim (s : String) : String :=
  String.mk (((s.data.dropWhile Char.isWhitespace).reverse.dropWhile
    Char.isWhitespace).reverse)

/-- Outcome of the CLI `search` action. -/
inductive CliSearchOutcome where
  | rejected (msg : String)
  | results (rs : List SearchResult)
deriving DecidableEq, Repr

/-- cli.ts `search` action: join the query parts with spaces, trim, reject an
empty result before calling `search`; otherwise resolve the mode from the
`--hybrid`/`--semantic` flags and the limit (a falsy parse yields 20) and
invoke the core `search`. The returned trace contains the store accesses
performed. -/
def cliSearchAction (ctx : SearchCtx) (queryParts : List String)
    (repo : Option String) (limitArg : Option Nat)
    (semanticFlag hybridFlag : Bool) : CliSearchOutcome × List StoreAccess :=
  let query := jsTrim (String.intercalate " " queryParts)
  if query = "" then
    (CliSearchOutcome.rejected "Query string cannot be empty.", [])
  else
    let mode :=
      if hybridFlag then SearchMode.hybrid
      else if semanticFlag then SearchMode.semantic
      else SearchMode.keyword
    let limit :=
      match limitArg with
      | some n => if n = 0 then 20 else n
      | none => 20
    let res := search ctx query mode { repo := repo, limit := some limit }
    (CliSearchOutcome.results res.1, res.2)

/-! ### Metadata + text store (src/db.ts, SQLite side) -/

/-- A committed row of the `file_meta` table. -/
structure MetaRow where
  id : Nat
  repo : String
  path : String
  filename : String
  mtime_ms : Int
  size_bytes : Nat
  hash : Bytes
deriving DecidableEq, Repr

/-- A row of the `file_fts` full-text table (rowid equals the `file_meta`
id). The stored `contents` is the capped text; we keep it as bytes. -/
structure FtsRow where
  rowid : Nat
  repo : String
  path : String
  filename : String
  contents : Bytes
deriving DecidableEq, Repr

/-- A row of the `repo_index` registry table. -/
structure RepoIndexRow where
  repo : String
  source : Option String
  last_indexed_ms : Int
  last_error : Option String
deriving DecidableEq, Repr

/-- State of the SQLite database: the three tables plus the next rowid the
`file_meta` INTEGER PRIMARY KEY would assign. -/
structure DBState where
  fileMeta : List MetaRow := []
  fileFts : List FtsRow := []
  repoIndex : List RepoIndexRow := []
  nextId : Nat := 1
deriving DecidableEq, Repr

/-- db.ts `upsertRepoIndex`: INSERT .. ON CONFLICT(repo) DO UPDATE on the
`repo_index` table. -/
def upsertRepoIndex (db : DBState) (repo : String) (source : Option String)
    (timestamp : Int) (error : Option String) : DBState :=
  if db.repoIndex.any (fun r => r.repo == repo) then
    { db with repoIndex := db.repoIndex.map (fun r =>
        if r.repo == repo then
          { repo := repo, source := source, last_indexed_ms := timestamp,
            last_error := error }
        else r) }
  else
    { db with repoIndex := db.repoIndex ++
        [{ repo := repo, source := source, last_indexed_ms := timestamp,
           last_error := error }] }

/-- Registry lookup by primary key (used to state theorems). -/
def getRepoIndex (db : DBState) (repo : String) : Option RepoIndexRow :=
  db.repoIndex.find? (fun r => r.repo == repo)

/-! ### Vector store (src/db.ts, LanceDB side) -/

/-- A row of the LanceDB `files` table. -/
structure VecRow where
  id : String
  repo : String
  path : String
  filename : String
  mtime_ms : Int
  size_bytes : Nat
  hash : Bytes
  vector : List ℚ
deriving DecidableEq, Repr

/-- State of the vector store. `opCount` numbers the mutation attempts made
so far, so that optimistic-concurrency conflicts can be injected per
attempt. -/
structure VecState where
  rows : List VecRow := []
  opCount : Nat := 0
deriving DecidableEq, Repr

/-- Environment describing which vector-store mutation attempts hit a commit
conflict: attempt number `n` (the current `opCount`) conflicts iff
`conflictOn n`. -/
structure VecCtx where
  conflictOn : Nat → Bool := fun _ => false

/-- One `table.delete` call with the filter `id = '<idVal>'` (the escaping of
the TypeScript filter string only protects the quoting; its semantics is an
exact match on the unescaped id). Returns the error message, if any, and the
new state; the attempt counter advances either way. -/
def vecDelete (vc : VecCtx) (idVal : String) (vs : VecState) :
    Option String × VecState :=
  if vc.conflictOn vs.opCount then
    (some "Commit conflict", { vs with opCount := vs.opCount + 1 })
  else
    (none, { rows := vs.rows.filter (fun r => !(r.id == idVal)),
             opCount := vs.opCount + 1 })

/-- One `table.add` call appending rows. -/
def vecAdd (vc : VecCtx) (newRows : List VecRow) (vs : VecState) :
    Option String × VecState :=
  if vc.conflictOn vs.opCount then
    (some "Commit conflict", { vs with opCount := vs.opCount + 1 })
  else
    (none, { rows := vs.rows ++ newRows, opCount := vs.opCount + 1 })

/-- A staged vector-store mutation of the indexing run. -/
inductive VecOp where
  | del (idVal : String)
  | add (rows : List VecRow)
deriving Repr

/-- Execute staged mutations in order exactly as the `await` sequence in
`indexRepository` does: stop at the first error (which the caller
re-raises). -/
def runVecOps (vc : VecCtx) : List VecOp → VecState → Option String × VecState
  | [], vs => (none, vs)
  | VecOp.del idVal :: rest, vs =>
      let step := vecDelete vc idVal vs
      match step.1 with
      | some msg => (some msg, step.2)
      | none => runVecOps vc rest step.2
  | VecOp.add rows :: rest, vs =>
      let step := vecAdd vc rows vs
      match step.1 with
      | some msg => (some msg, step.2)
      | none => runVecOps vc rest step.2

/-- Substring containment on character lists (JS `String.prototype.includes`). -/
def listContainsSub (needle : List Char) : List Char → Bool
  | [] => needle.isEmpty
  | a :: rest => needle.isPrefixOf (a :: rest) || listContainsSub needle rest

/-- db.ts: `errorMessage.includes('Commit conflict')`. -/
def includesCommitConflict (msg : String) : Bool :=
  listContainsSub ("Commit conflict".data) msg.data

/-- Recursion of db.ts `retryLanceOperation`, with the remaining attempt
budget explicit (`remaining = maxRetries - attempt`). Accumulates the
backoff sleeps (`2^attempt * 10` ms) performed before each retry, and the
`lastError` that the fallthrough path would re-raise. -/
def retryLanceOperationAux (op : VecState → Option String × VecState) :
    Nat → Nat → VecState → List Nat → Option String →
    (Option String × VecState) × List Nat
  | 0, _, vs, sleeps, lastError =>
      ((some (lastError.getD "Operation failed after retries"), vs), sleeps)
  | remaining + 1, attempt, vs, sleeps, _lastError =>
      let res := op vs
      match res.1 with
      | none => ((none, res.2), sleeps)
      | some msg =>
          if includesCommitConflict msg ∧ remaining > 0 then
            retryLanceOperationAux op remaining (attempt + 1) res.2
              (sleeps ++ [2 ^ attempt * 10]) (some msg)
          else ((some msg, res.2), sleeps)

/-- db.ts `retryLanceOperation` (each attempt reacquires the latest view of
the table via `refreshLanceTable`; in this model the threaded `VecState` is
already the latest view). Returns the outcome, the state after the attempts
made, and the list of backoff sleeps performed. -/
def retryLanceOperation (op : VecState → Option String × VecState)
    (maxRetries : Nat := 3) (vs : VecState) :
    (Option String × VecState) × List Nat :=
  retryLanceOperationAux op maxRetries 0 vs [] none

/-- db.ts `deleteFromLanceTable`: a delete wrapped in the retry policy. -/
def deleteFromLanceTable (vc : VecCtx) (idVal : String) (vs : VecState) :
    (Option String × VecState) × List Nat :=
  retryLanceOperation (vecDelete vc idVal) 3 vs

/-- db.ts `addToLanceTable`: an add wrapped in the retry policy. -/
def addToLanceTable (vc : VecCtx) (rows : List VecRow) (vs : VecState) :
    (Option String × VecState) × List Nat :=
  retryLanceOperation (vecAdd vc rows) 3 vs

/-! ### Indexer (src/indexer.ts) -/

/-- indexer.ts `IndexOptions`. The glob `patterns`/`ignore` options are
absorbed into the scan oracle of `RepoFS`. -/
structure IndexOptions where
  repo : Option String := none
  source : Option String := none
  force : Option Bool := none

/-- The local repository directory as the indexer observes it: the fast-glob
candidate enumeration (which can fail, failing the whole run), and per-path
raw bytes and stat data. Reads are modelled as total: per-file IO errors are
not represented. -/
structure RepoFS where
  repoPath : String := ""
  scan : Except String (List String)
  content : String → Bytes
  mtime : String → Int
  size : String → Nat

/-- External collaborators of one indexing run: the repo name derived by
`safeRepoNameFromPath`, the SHA-256 digest function, the embedding service,
and the three `Date.now()` readings (start of run, registry upsert, end of
run). -/
structure Ctx where
  defaultRepoName : String
  hashFn : Bytes → Bytes
  embedFn : Bytes → List ℚ
  timeStart : Int := 0
  timeUpsert : Int := 0
  timeEnd : Int := 0

/-- indexer.ts `FileMetaRow` as staged during the scan (id not yet
assigned). -/
structure FileMetaRow where
  repo : String
  path : String
  filename : String
  mtime_ms : Int
  size_bytes : Nat
  hash : Bytes
deriving DecidableEq, Repr

/-- One staged element of `pendingUpdates`. -/
structure PendingUpdate where
  meta : FileMetaRow
  contents : Bytes
  embedding : List ℚ
deriving DecidableEq, Repr

/-- indexer.ts `IndexSummary`. -/
structure IndexSummary where
  repo : String
  repoPath : String
  filesScanned : Nat
  filesIndexed : Nat
  filesDeleted : Nat
  filesSkippedBinary : Nat
  filesSkippedUnchanged : Nat
  durationMs : Int
deriving DecidableEq, Repr

/-- Mutable state of the per-file scan loop of `indexRepository`.
`seenPaths` is a JS `Set` of which only membership is consumed; it is
modelled as the insertion-ordered list (the scan entries are unique).
`embedCalls` records each `embedText` invocation as (path, capped
contents). -/
structure LoopState where
  seenPaths : List String := []
  pendingUpdates : List PendingUpdate := []
  binarySkipped : Nat := 0
  unchangedSkipped : Nat := 0
  processedCount : Nat := 0
  indexedCount : Nat := 0
  embedCalls : List (String × Bytes) := []
deriving DecidableEq, Repr

/-- The `existingByPath` map of `indexRepository`: records of this repo keyed
by path (a JS `Map` built from a list lets the last entry win). -/
def existingRecordsFor (db : DBState) (repoName : String) : List MetaRow :=
  db.fileMeta.filter (fun r => r.repo == repoName)

/-- Lookup in `existingByPath`. -/
def existingByPath (db : DBState) (repoName path : String) : Option MetaRow :=
  ((existingRecordsFor db repoName).filter (fun r => r.path == path)).getLast?

/-- One iteration of the `for (const relativePath of entries)` loop of
`indexRepository` (progress-bar updates omitted — they only render the
counters). -/
def stepEntry (ctx : Ctx) (fs : RepoFS) (repoName : String) (force : Bool)
    (exLookup : String → Option MetaRow) (st : LoopState)
    (relativePath : String) : LoopState :=
  let buffer := fs.content relativePath
  if isBinaryBuffer buffer then
    { st with
      binarySkipped := st.binarySkipped + 1
      processedCount := st.processedCount + 1 }
  else
    let contents := buffer.take MAX_INDEXED_BYTES
    let hash := ctx.hashFn buffer
    let filename := getFilename relativePath
    let st := { st with seenPaths := st.seenPaths ++ [relativePath] }
    let unchangedHit :=
      match exLookup relativePath with
      | some existing => existing.hash == hash && !force
      | none => false
    if unchangedHit then
      { st with
        unchangedSkipped := st.unchangedSkipped + 1
        processedCount := st.processedCount + 1 }
    else
      let embedding := ctx.embedFn contents
      let meta : FileMetaRow :=
        { repo := repoName
          path := relativePath
          filename := filename
          mtime_ms := fs.mtime relativePath
          size_bytes := fs.size relativePath
          hash := hash }
      { st with
        pendingUpdates := st.pendingUpdates ++
          [{ meta := meta, contents := contents, embedding := embedding }]
        indexedCount := st.indexedCount + 1
        processedCount := st.processedCount + 1
        embedCalls := st.embedCalls ++ [(relativePath, contents)] }

/-- The whole scan loop. -/
def runEntries (ctx : Ctx) (fs : RepoFS) (repoName : String) (force : Bool)
    (exLookup : String → Option MetaRow) :
    List String → LoopState → LoopState
  | [], st => st
  | p :: rest, st =>
      runEntries ctx fs repoName force exLookup rest
        (stepEntry ctx fs repoName force exLookup st p)

/-- The `upsertMeta` prepared statement: INSERT .. ON CONFLICT(repo, path)
DO UPDATE .. RETURNING id. -/
def upsertMeta (db : DBState) (m : FileMetaRow) : Nat × DBState :=
  match db.fileMeta.find? (fun r => r.repo == m.repo && r.path == m.path) with
  | some r =>
      (r.id,
       { db with fileMeta := db.fileMeta.map (fun r0 =>
           if r0.repo == m.repo && r0.path == m.path then
             { r0 with
               filename := m.filename
               mtime_ms := m.mtime_ms
               size_bytes := m.size_bytes
               hash := m.hash }
           else r0) })
  | none =>
      (db.nextId,
       { db with
         fileMeta := db.fileMeta ++
           [{ id := db.nextId, repo := m.repo, path := m.path,
              filename := m.filename, mtime_ms := m.mtime_ms,
              size_bytes := m.size_bytes, hash := m.hash }]
         nextId := db.nextId + 1 })

/-- One staged update inside the transaction: upsert the meta row, delete the
FTS row with that rowid, insert the fresh FTS row. (The source also writes
the returned id back into `record.meta.id`; nothing reads it afterwards.) -/
def applyUpdate (db : DBState) (u : PendingUpdate) : DBState :=
  let res := upsertMeta db u.meta
  let db := { res.2 with
    fileFts := res.2.fileFts.filter (fun f => !(f.rowid == res.1)) }
  { db with fileFts := db.fileFts ++
      [{ rowid := res.1, repo := u.meta.repo, path := u.meta.path,
         filename := u.meta.filename, contents := u.contents }] }

/-- One staged deletion inside the transaction: remove the FTS row and the
meta row by identity. -/
def applyDeletion (db : DBState) (removal : Nat × String) : DBState :=
  { db with
    fileFts := db.fileFts.filter (fun f => !(f.rowid == removal.1))
    fileMeta := db.fileMeta.filter (fun r => !(r.id == removal.1)) }

/-- The atomic transaction of `indexRepository`: all staged updates, then all
staged deletions. -/
def runTransaction (db : DBState) (updates : List PendingUpdate)
    (deletions : List (Nat × String)) : DBState :=
  deletions.foldl applyDeletion (updates.foldl applyUpdate db)

/-- Insertion into the `Set` of delete filters (insertion order, first
occurrence wins, as JS `Set.add`). -/
def addFilter (acc : List String) (f : String) : List String :=
  if f ∈ acc then acc else acc ++ [f]

/-- The deduplicating `Set` of delete filters built from `pendingUpdates`. -/
def pendingFilters (repoName : String) (updates : List PendingUpdate) : List String :=
  updates.foldl (fun acc u => addFilter acc (toVectorId repoName u.meta.path)) []

/-- Result of one modelled indexing run: the outcome (summary or error), the
final states of both stores, and traces of the staged updates, staged
removals and embedding calls actually performed. -/
structure RunResult where
  outcome : Except String IndexSummary
  db : DBState
  vec : VecState
  pending : List PendingUpdate
  removed : List (Nat × String)
  embedCalls : List (String × Bytes)
deriving Repr

/-- The staged vector-store mutations of a run: one delete per removed
record, then (when anything was staged) the deduplicated per-key deletes
followed by one bulk add. -/
def vectorOps (repoName : String) (pendingUpdates : List PendingUpdate)
    (removedRecords : List (Nat × String)) : List VecOp :=
  removedRecords.map (fun removal => VecOp.del (toVectorId repoName removal.2)) ++
    (if pendingUpdates.isEmpty then []
     else
       (pendingFilters repoName pendingUpdates).map VecOp.del ++
         [VecOp.add (pendingUpdates.map (fun u =>
           { id := toVectorId repoName u.meta.path
             repo := repoName
             path := u.meta.path
             filename := u.meta.filename
             mtime_ms := u.meta.mtime_ms
             size_bytes := u.meta.size_bytes
             hash := u.meta.hash
             vector := u.embedding }))])

/-- Body of indexer.ts `indexRepository` after a successful candidate scan:
scan the entries one at a time, reconcile against the existing records,
commit the metadata/text transaction, apply the vector mutations (each
issued directly, aborting at the first error), and finally upsert the
registry row. A vector-store error leaves the function with that error and
skips the registry upsert. -/
def indexCore (ctx : Ctx) (fs : RepoFS) (options : IndexOptions)
    (db : DBState) (vc : VecCtx) (vs : VecState) (entries : List String) :
    RunResult :=
  let repoName := options.repo.getD ctx.defaultRepoName
  let force := options.force.getD false
  let st := runEntries ctx fs repoName force
    (fun p => existingByPath db repoName p) entries {}
  let removedRecords :=
    ((existingRecordsFor db repoName).filter
        (fun r => !(st.seenPaths.contains r.path))).map
      (fun r => (r.id, r.path))
  let db1 := runTransaction db st.pendingUpdates removedRecords
  let vres := runVecOps vc (vectorOps repoName st.pendingUpdates removedRecords) vs
  match vres.1 with
  | some e =>
      { outcome := Except.error e, db := db1, vec := vres.2,
        pending := st.pendingUpdates, removed := removedRecords,
        embedCalls := st.embedCalls }
  | none =>
      let db2 := upsertRepoIndex db1 repoName options.source ctx.timeUpsert none
      { outcome := Except.ok
          { repo := repoName
            repoPath := fs.repoPath
            filesScanned := entries.length
            filesIndexed := st.pendingUpdates.length
            filesDeleted := removedRecords.length
            filesSkippedBinary := st.binarySkipped
            filesSkippedUnchanged := st.unchangedSkipped
            durationMs := ctx.timeEnd - ctx.timeStart }
        db := db2, vec := vres.2,
        pending := st.pendingUpdates, removed := removedRecords,
        embedCalls := st.embedCalls }

/-- indexer.ts `indexRepository`. A scan failure leaves the whole run with
that error (no store is mutated, no registry row written — the error
propagates to the caller); a successful scan proceeds with `indexCore`. -/
def indexRepository (ctx : Ctx) (fs : RepoFS) (options : IndexOptions)
    (db : DBState) (vc : VecCtx) (vs : VecState) : RunResult :=
  match fs.scan with
  | Except.error e =>
      { outcome := Except.error e, db := db, vec := vs,
        pending := [], removed := [], embedCalls := [] }
  | Except.ok entries => indexCore ctx fs options db vc vs entries

/-! ### Characterization of the scan loop -/

/-- A candidate is classified binary. -/
def entryBinary (fs : RepoFS) (p : String) : Bool :=
  isBinaryBuffer (fs.content p)

/-- A candidate passes the unchanged-skip test (existing record with the
same hash, and force off). -/
def entryUnchanged (ctx : Ctx) (fs : RepoFS) (force : Bool)
    (exLookup : String → Option MetaRow) (p : String) : Bool :=
  match exLookup p with
  | some existing => existing.hash == ctx.hashFn (fs.content p) && !force
  | none => false

/-- A candidate is staged for (re-)indexing. -/
def entryStaged (ctx : Ctx) (fs : RepoFS) (force : Bool)
    (exLookup : String → Option MetaRow) (p : String) : Bool :=
  !entryBinary fs p && !entryUnchanged ctx fs force exLookup p

/-- The staged update built for a candidate. -/
def mkPendingUpdate (ctx : Ctx) (fs : RepoFS) (repoName : String)
    (p : String) : PendingUpdate :=
  { meta :=
      { repo := repoName
        path := p
        filename := getFilename p
        mtime_ms := fs.mtime p
        size_bytes := fs.size p
        hash := ctx.hashFn (fs.content p) }
    contents := (fs.content p).take MAX_INDEXED_BYTES
    embedding := ctx.embedFn ((fs.content p).take MAX_INDEXED_BYTES) }

theorem runEntries_spec (ctx : Ctx) (fs : RepoFS) (repoName : String)
    (force : Bool) (exLookup : String → Option MetaRow) :
    ∀ (entries : List String) (st : LoopState),
      runEntries ctx fs repoName force exLookup entries st =
        { seenPaths := st.seenPaths ++
            entries.filter (fun p => !entryBinary fs p)
          pendingUpdates := st.pendingUpdates ++
            (entries.filter (entryStaged ctx fs force exLookup)).map
              (mkPendingUpdate ctx fs repoName)
          binarySkipped := st.binarySkipped +
            (entries.filter (entryBinary fs)).length
          unchangedSkipped := st.unchangedSkipped +
            (entries.filter (fun p =>
              !entryBinary fs p && entryUnchanged ctx fs force exLookup p)).length
          processedCount := st.processedCount + entries.length
          indexedCount := st.indexedCount +
            (entries.filter (entryStaged ctx fs force exLookup)).length
          embedCalls := st.embedCalls ++
            (entries.filter (entryStaged ctx fs force exLookup)).map
              (fun p => (p, (fs.content p).take MAX_INDEXED_BYTES)) }
  | [], st => by
      simp [runEntries]
  | p :: rest, st => by
      rw [runEntries, runEntries_spec ctx fs repoName force exLookup rest]
      by_cases hbin : entryBinary fs p
      · simp [stepEntry, entryBinary] at hbin ⊢
        simp [hbin, entryStaged, entryBinary, entryUnchanged,
          List.filter_cons, Nat.add_assoc, Nat.add_comm 1]
      · by_cases hunch : entryUnchanged ctx fs force exLookup p
        · have hbin' : isBinaryBuffer (fs.content p) = false := by
            simpa [entryBinary] using hbin
          have hcond :
              (match exLookup p with
               | some existing =>
                   existing.hash == ctx.hashFn (fs.content p) && !force
               | none => false) = true := by
            simpa [entryUnchanged] using hunch
          simp [stepEntry, hbin', hcond, entryStaged, entryBinary, hunch,
            List.filter_cons, List.append_assoc, Nat.add_assoc,
            Nat.add_comm 1]
        · have hbin' : isBinaryBuffer (fs.content p) = false := by
            simpa [entryBinary] using hbin
          have hcond :
              (match exLookup p with
               | some existing =>
                   existing.hash == ctx.hashFn (fs.content p) && !force
               | none => false) = false := by
            simpa [entryUnchanged] using hunch
          simp [stepEntry, hbin', hcond, entryStaged, entryBinary, hunch,
            mkPendingUpdate, List.filter_cons, List.append_assoc,
            Nat.add_assoc, Nat.add_comm 1]

/-! ### Store-level helper lemmas -/

theorem repoIndex_upsertMeta (db : DBState) (m : FileMetaRow) :
    (upsertMeta db m).2.repoIndex = db.repoIndex := by
  unfold upsertMeta
  cases db.fileMeta.find? (fun r => r.repo == m.repo && r.path == m.path) <;> rfl

theorem repoIndex_applyUpdate (db : DBState) (u : PendingUpdate) :
    (applyUpdate db u).repoIndex = db.repoIndex := by
  unfold applyUpdate
  simp [repoIndex_upsertMeta]

theorem repoIndex_applyDeletion (db : DBState) (removal : Nat × String) :
    (applyDeletion db removal).repoIndex = db.repoIndex := rfl

theorem repoIndex_foldl_applyUpdate :
    ∀ (updates : List PendingUpdate) (db : DBState),
      (updates.foldl applyUpdate db).repoIndex = db.repoIndex
  | [], db => rfl
  | u :: rest, db => by
      rw [List.foldl_cons, repoIndex_foldl_applyUpdate rest, repoIndex_applyUpdate]

theorem repoIndex_foldl_applyDeletion :
    ∀ (deletions : List (Nat × String)) (db : DBState),
      (deletions.foldl applyDeletion db).repoIndex = db.repoIndex
  | [], db => rfl
  | d :: rest, db => by
      rw [List.foldl_cons, repoIndex_foldl_applyDeletion rest, repoIndex_applyDeletion]

theorem repoIndex_runTransaction (db : DBState) (updates : List PendingUpdate)
    (deletions : List (Nat × String)) :
    (runTransaction db updates deletions).repoIndex = db.repoIndex := by
  unfold runTransaction
  rw [repoIndex_foldl_applyDeletion, repoIndex_foldl_applyUpdate]

theorem find?_map_upsert_row (r : String) (row : RepoIndexRow)
    (hrow : (row.repo == r) = true) :
    ∀ (l : List RepoIndexRow), l.any (fun x => x.repo == r) = true →
      ((l.map (fun x => if x.repo == r then row else x)).find?
        (fun x => x.repo == r)) = some row
  | [], h => by simp at h
  | x :: rest, h => by
      by_cases hx : (x.repo == r) = true
      · simp [hx, List.find?, hrow]
      · have hx' : (x.repo == r) = false := by simpa using hx
        have hrest : rest.any (fun y => y.repo == r) = true := by
          simpa [List.any_cons, hx'] using h
        simp only [List.map_cons]
        rw [if_neg (by simp [hx']), List.find?_cons_of_neg _ (by simp [hx'])]
        exact find?_map_upsert_row r row hrow rest hrest

theorem find?_append_row (r : String) (row : RepoIndexRow)
    (hrow : (row.repo == r) = true) :
    ∀ (l : List RepoIndexRow), l.any (fun x => x.repo == r) = false →
      ((l ++ [row]).find? (fun x => x.repo == r)) = some row
  | [], _ => by simp [List.find?, hrow]
  | x :: rest, h => by
      have hx : (x.repo == r) = false := by
        by_contra hc
        simp [List.any_cons] at h
        exact absurd h.1 (by simpa using hc)
      have hrest : rest.any (fun y => y.repo == r) = false := by
        simpa [List.any_cons, hx] using h
      simp only [List.cons_append]
      rw [List.find?_cons_of_neg _ (by simp [hx])]
      exact find?_append_row r row hrow rest hrest

theorem getRepoIndex_upsertRepoIndex (db : DBState) (repo : String)
    (source : Option String) (timestamp : Int) (error : Option String) :
    getRepoIndex (upsertRepoIndex db repo source timestamp error) repo =
      some { repo := repo, source := source, last_indexed_ms := timestamp,
             last_error := error } := by
  unfold getRepoIndex upsertRepoIndex
  by_cases h : db.repoIndex.any (fun r => r.repo == repo) = true
  · simp only [h, if_true]
    exact find?_map_upsert_row repo _ (by simp) db.repoIndex h
  · have h' : db.repoIndex.any (fun r => r.repo == repo) = false := by
      simpa using h
    simp only [h', if_false, Bool.false_eq_true]
    exact find?_append_row repo _ (by simp) db.repoIndex h'

/-! ### Vector-store run lemmas -/

/-- Pure effect of a mutation list on the stored rows (no conflicts). -/
def applyVecOpsPure : List VecOp → List VecRow → List VecRow
  | [], rows => rows
  | VecOp.del idVal :: rest, rows =>
      applyVecOpsPure rest (rows.filter (fun r => !(r.id == idVal)))
  | VecOp.add newRows :: rest, rows => applyVecOpsPure rest (rows ++ newRows)

theorem runVecOps_noconflict (vc : VecCtx) (hnc : ∀ n, vc.conflictOn n = false) :
    ∀ (ops : List VecOp) (vs : VecState),
      runVecOps vc ops vs =
        (none, { rows := applyVecOpsPure ops vs.rows,
                 opCount := vs.opCount + ops.length })
  | [], vs => by simp [runVecOps, applyVecOpsPure]
  | VecOp.del idVal :: rest, vs => by
      rw [runVecOps]
      simp only [vecDelete, hnc, Bool.false_eq_true, if_false]
      rw [runVecOps_noconflict vc hnc rest]
      simp [applyVecOpsPure, Nat.add_assoc, Nat.add_comm 1]
  | VecOp.add newRows :: rest, vs => by
      rw [runVecOps]
      simp only [vecAdd, hnc, Bool.false_eq_true, if_false]
      rw [runVecOps_noconflict vc hnc rest]
      simp [applyVecOpsPure, Nat.add_assoc, Nat.add_comm 1]

theorem runVecOps_ok_opCount (vc : VecCtx) :
    ∀ (ops : List VecOp) (vs vs' : VecState),
      runVecOps vc ops vs = (none, vs') →
      vs'.opCount = vs.opCount + ops.length
  | [], vs, vs', h => by
      simp [runVecOps] at h
      simp [← h]
  | VecOp.del idVal :: rest, vs, vs', h => by
      rw [runVecOps] at h
      by_cases hc : vc.conflictOn vs.opCount = true
      · simp [vecDelete, hc] at h
      · have hc' : vc.conflictOn vs.opCount = false := by simpa using hc
        simp only [vecDelete, hc', Bool.false_eq_true, if_false] at h
        have := runVecOps_ok_opCount vc rest _ vs' h
        simp only [List.length_cons] at this ⊢
        omega
  | VecOp.add newRows :: rest, vs, vs', h => by
      rw [runVecOps] at h
      by_cases hc : vc.conflictOn vs.opCount = true
      · simp [vecAdd, hc] at h
      · have hc' : vc.conflictOn vs.opCount = false := by simpa using hc
        simp only [vecAdd, hc', Bool.false_eq_true, if_false] at h
        have := runVecOps_ok_opCount vc rest _ vs' h
        simp only [List.length_cons] at this ⊢
        omega

theorem applyVecOpsPure_no_id :
    ∀ (idD : String) (ops : List VecOp) (rows : List VecRow),
      (∀ nr, VecOp.add nr ∈ ops → ∀ r ∈ nr, r.id ≠ idD) →
      ((VecOp.del idD ∈ ops) ∨ (∀ r ∈ rows, r.id ≠ idD)) →
      ∀ r ∈ applyVecOpsPure ops rows, r.id ≠ idD
  | idD, [], rows, _, hbase, r, hr => by
      cases hbase with
      | inl h => simp at h
      | inr h => exact h r (by simpa [applyVecOpsPure] using hr)
  | idD, VecOp.del idVal :: rest, rows, hadd, hbase, r, hr => by
      have hadd' : ∀ nr, VecOp.add nr ∈ rest → ∀ r ∈ nr, r.id ≠ idD :=
        fun nr hnr => hadd nr (List.mem_cons_of_mem _ hnr)
      by_cases hid : idVal = idD
      · refine applyVecOpsPure_no_id idD rest _ hadd' (Or.inr ?_) r
          (by simpa [applyVecOpsPure] using hr)
        intro x hx
        have hxmem := List.of_mem_filter hx
        simp only [Bool.not_eq_true', beq_eq_false_iff_ne] at hxmem
        simpa [hid] using hxmem
      · cases hbase with
        | inl h =>
            have hmem : VecOp.del idD ∈ rest := by
              rcases List.mem_cons.mp h with h1 | h1
              · exact absurd (by injection h1.symm) hid
              · exact h1
            exact applyVecOpsPure_no_id idD rest _ hadd' (Or.inl hmem) r
              (by simpa [applyVecOpsPure] using hr)
        | inr h =>
            refine applyVecOpsPure_no_id idD rest _ hadd' (Or.inr ?_) r
              (by simpa [applyVecOpsPure] using hr)
            intro x hx
            exact h x (List.mem_of_mem_filter hx)
  | idD, VecOp.add newRows :: rest, rows, hadd, hbase, r, hr => by
      have hadd' : ∀ nr, VecOp.add nr ∈ rest → ∀ r ∈ nr, r.id ≠ idD :=
        fun nr hnr => hadd nr (List.mem_cons_of_mem _ hnr)
      have hnew : ∀ x ∈ newRows, x.id ≠ idD :=
        hadd newRows (List.mem_cons_self _ _)
      cases hbase with
      | inl h =>
          rcases List.mem_cons.mp h with h1 | h1
          · cases h1
          · exact applyVecOpsPure_no_id idD rest _ hadd' (Or.inl h1) r
              (by simpa [applyVecOpsPure] using hr)
      | inr h =>
          refine applyVecOpsPure_no_id idD rest _ hadd' (Or.inr ?_) r
            (by simpa [applyVecOpsPure] using hr)
          intro x hx
          rcases List.mem_append.mp hx with h1 | h1
          · exact h x h1
          · exact hnew x h1

/-! ### Transaction membership lemmas -/

theorem mem_fileMeta_applyUpdate (db : DBState) (u : PendingUpdate) (r : MetaRow)
    (hr : r ∈ (applyUpdate db u).fileMeta) :
    (∃ r0 ∈ db.fileMeta, r.id = r0.id ∧ r.repo = r0.repo ∧ r.path = r0.path) ∨
      (r.repo = u.meta.repo ∧ r.path = u.meta.path) := by
  unfold applyUpdate upsertMeta at hr
  cases hfind : db.fileMeta.find? (fun x => x.repo == u.meta.repo && x.path == u.meta.path) with
  | some r0 =>
      rw [hfind] at hr
      simp only at hr
      rcases List.mem_map.mp hr with ⟨r1, hr1, hmap⟩
      by_cases hcond : (r1.repo == u.meta.repo && r1.path == u.meta.path) = true
      · rw [if_pos hcond] at hmap
        exact Or.inl ⟨r1, hr1, by rw [← hmap], by rw [← hmap], by rw [← hmap]⟩
      · rw [if_neg hcond] at hmap
        exact Or.inl ⟨r1, hr1, by rw [← hmap], by rw [← hmap], by rw [← hmap]⟩
  | none =>
      rw [hfind] at hr
      simp only at hr
      rcases List.mem_append.mp hr with h1 | h1
      · exact Or.inl ⟨r, h1, rfl, rfl, rfl⟩
      · have : r = { id := db.nextId, repo := u.meta.repo, path := u.meta.path,
                     filename := u.meta.filename, mtime_ms := u.meta.mtime_ms,
                     size_bytes := u.meta.size_bytes, hash := u.meta.hash } := by
          simpa using h1
        exact Or.inr ⟨by rw [this], by rw [this]⟩

theorem mem_fileMeta_foldl_applyUpdate :
    ∀ (updates : List PendingUpdate) (db : DBState) (r : MetaRow),
      r ∈ (updates.foldl applyUpdate db).fileMeta →
      (∃ r0 ∈ db.fileMeta, r.id = r0.id ∧ r.repo = r0.repo ∧ r.path = r0.path) ∨
        (∃ u ∈ updates, r.repo = u.meta.repo ∧ r.path = u.meta.path)
  | [], db, r, hr => Or.inl ⟨r, hr, rfl, rfl, rfl⟩
  | u :: rest, db, r, hr => by
      rw [List.foldl_cons] at hr
      rcases mem_fileMeta_foldl_applyUpdate rest (applyUpdate db u) r hr with h | h
      · rcases h with ⟨r0, hr0, hid, hrepo, hpath⟩
        rcases mem_fileMeta_applyUpdate db u r0 hr0 with h1 | h1
        · rcases h1 with ⟨r1, hr1, hid1, hrepo1, hpath1⟩
          exact Or.inl ⟨r1, hr1, hid.trans hid1, hrepo.trans hrepo1,
            hpath.trans hpath1⟩
        · exact Or.inr ⟨u, List.mem_cons_self _ _,
            hrepo.trans h1.1, hpath.trans h1.2⟩
      · rcases h with ⟨u1, hu1, hprop⟩
        exact Or.inr ⟨u1, List.mem_cons_of_mem _ hu1, hprop⟩

theorem mem_fileFts_applyUpdate (db : DBState) (u : PendingUpdate) (f : FtsRow)
    (hf : f ∈ (applyUpdate db u).fileFts) :
    f ∈ db.fileFts ∨ (f.repo = u.meta.repo ∧ f.path = u.meta.path) := by
  unfold applyUpdate at hf
  simp only at hf
  rcases List.mem_append.mp hf with h1 | h1
  · have h2 := List.mem_of_mem_filter h1
    unfold upsertMeta at h2
    cases hfind : db.fileMeta.find?
        (fun x => x.repo == u.meta.repo && x.path == u.meta.path) with
    | some r0 => rw [hfind] at h2; exact Or.inl h2
    | none => rw [hfind] at h2; exact Or.inl h2
  · have : f = { rowid := (upsertMeta db u.meta).1, repo := u.meta.repo,
                 path := u.meta.path, filename := u.meta.filename,
                 contents := u.contents } := by simpa using h1
    exact Or.inr ⟨by rw [this], by rw [this]⟩

theorem mem_fileFts_foldl_applyUpdate :
    ∀ (updates : List PendingUpdate) (db : DBState) (f : FtsRow),
      f ∈ (updates.foldl applyUpdate db).fileFts →
      f ∈ db.fileFts ∨ (∃ u ∈ updates, f.repo = u.meta.repo ∧ f.path = u.meta.path)
  | [], _, _, hf => Or.inl hf
  | u :: rest, db, f, hf => by
      rw [List.foldl_cons] at hf
      rcases mem_fileFts_foldl_applyUpdate rest (applyUpdate db u) f hf with h | h
      · rcases mem_fileFts_applyUpdate db u f h with h1 | h1
        · exact Or.inl h1
        · exact Or.inr ⟨u, List.mem_cons_self _ _, h1⟩
      · rcases h with ⟨u1, hu1, hprop⟩
        exact Or.inr ⟨u1, List.mem_cons_of_mem _ hu1, hprop⟩

theorem mem_fileMeta_foldl_applyDeletion :
    ∀ (deletions : List (Nat × String)) (db : DBState) (r : MetaRow),
      r ∈ (deletions.foldl applyDeletion db).fileMeta →
      r ∈ db.fileMeta ∧ ∀ d ∈ deletions, r.id ≠ d.1
  | [], _, _, hr => ⟨hr, by simp⟩
  | d :: rest, db, r, hr => by
      rw [List.foldl_cons] at hr
      have ih := mem_fileMeta_foldl_applyDeletion rest (applyDeletion db d) r hr
      have h1 : r ∈ (applyDeletion db d).fileMeta := ih.1
      unfold applyDeletion at h1
      simp only at h1
      have hmem := List.mem_of_mem_filter h1
      have hne : r.id ≠ d.1 := by
        have := List.of_mem_filter h1
        simpa using this
      refine ⟨hmem, ?_⟩
      intro d1 hd1
      rcases List.mem_cons.mp hd1 with h | h
      · rw [h]; exact hne
      · exact ih.2 d1 h

theorem mem_fileFts_foldl_applyDeletion :
    ∀ (deletions : List (Nat × String)) (db : DBState) (f : FtsRow),
      f ∈ (deletions.foldl applyDeletion db).fileFts →
      f ∈ db.fileFts ∧ ∀ d ∈ deletions, f.rowid ≠ d.1
  | [], _, _, hf => ⟨hf, by simp⟩
  | d :: rest, db, f, hf => by
      rw [List.foldl_cons] at hf
      have ih := mem_fileFts_foldl_applyDeletion rest (applyDeletion db d) f hf
      have h1 : f ∈ (applyDeletion db d).fileFts := ih.1
      unfold applyDeletion at h1
      simp only at h1
      have hmem := List.mem_of_mem_filter h1
      have hne : f.rowid ≠ d.1 := by
        have := List.of_mem_filter h1
        simpa using this
      refine ⟨hmem, ?_⟩
      intro d1 hd1
      rcases List.mem_cons.mp hd1 with h | h
      · rw [h]; exact hne
      · exact ih.2 d1 h

/-! ### Counting lemmas -/

theorem length_filter_partition (f g : String → Bool) :
    ∀ (l : List String),
      (l.filter (fun p => !f p && !g p)).length +
        (l.filter f).length +
        (l.filter (fun p => !f p && g p)).length = l.length
  | [] => rfl
  | p :: rest => by
      have ih := length_filter_partition f g rest
      by_cases hf : f p = true
      · simp [List.filter_cons, hf]
        omega
      · have hf' : f p = false := by simpa using hf
        by_cases hg : g p = true
        · simp [List.filter_cons, hf', hg]
          omega
        · have hg' : g p = false := by simpa using hg
          simp [List.filter_cons, hf', hg']
          omega

/-! ### Binary classification lemmas -/

/-- The suspicious-byte predicate of `isBinaryBuffer` (a control character
outside the 7..13 whitespace range, or byte value 255). -/
def suspiciousByte (byte : Nat) : Bool :=
  decide (byte < 7 ∨ (byte > 13 ∧ byte < 32) ∨ byte = 255)

theorem binaryScan_sawNull :
    ∀ (l : Bytes), (binaryScan l).2 = l.contains 0
  | [] => rfl
  | byte :: rest => by
      by_cases hb : byte = 0
      · simp [binaryScan, hb]
      · rw [binaryScan]
        simp only [if_neg hb]
        have ih := binaryScan_sawNull rest
        by_cases hs : byte < 7 ∨ (byte > 13 ∧ byte < 32) ∨ byte = 255 <;>
          simp [hs, ih, List.contains_cons, hb, Ne.symm hb]

theorem binaryScan_count_of_no_null :
    ∀ (l : Bytes), ¬(0 ∈ l) →
      (binaryScan l).1 = (l.filter suspiciousByte).length
  | [], _ => rfl
  | byte :: rest, h => by
      have hb : ¬(byte = 0) := fun hc => h (by simp [hc])
      have hrest : ¬(0 ∈ rest) := fun hc => h (List.mem_cons_of_mem _ hc)
      rw [binaryScan]
      simp only [if_neg hb]
      have ih := binaryScan_count_of_no_null rest hrest
      by_cases hs : byte < 7 ∨ (byte > 13 ∧ byte < 32) ∨ byte = 255
      · simp [List.filter_cons, suspiciousByte, hs, ih]
      · simp [List.filter_cons, suspiciousByte, hs, ih]

/-! ### Dispatch lemmas for indexRepository -/

theorem indexRepository_scan_ok (ctx : Ctx) (fs : RepoFS) (options : IndexOptions)
    (db : DBState) (vc : VecCtx) (vs : VecState) (entries : List String)
    (hscan : fs.scan = Except.ok entries) :
    indexRepository ctx fs options db vc vs =
      indexCore ctx fs options db vc vs entries := by
  unfold indexRepository
  rw [hscan]

theorem indexRepository_scan_error (ctx : Ctx) (fs : RepoFS) (options : IndexOptions)
    (db : DBState) (vc : VecCtx) (vs : VecState) (e : String)
    (hscan : fs.scan = Except.error e) :
    indexRepository ctx fs options db vc vs =
      { outcome := Except.error e, db := db, vec := vs,
        pending := [], removed := [], embedCalls := [] } := by
  unfold indexRepository
  rw [hscan]

theorem indexCore_repoIndex_of_error (ctx : Ctx) (fs : RepoFS)
    (options : IndexOptions) (db : DBState) (vc : VecCtx) (vs : VecState)
    (entries : List String) (e : String)
    (h : (indexCore ctx fs options db vc vs entries).outcome = Except.error e) :
    (indexCore ctx fs options db vc vs entries).db.repoIndex = db.repoIndex := by
  simp only [indexCore] at h ⊢
  split at h
  · exact repoIndex_runTransaction db _ _
  · simp at h

theorem indexCore_registry_of_ok (ctx : Ctx) (fs : RepoFS)
    (options : IndexOptions) (db : DBState) (vc : VecCtx) (vs : VecState)
    (entries : List String) (s : IndexSummary)
    (h : (indexCore ctx fs options db vc vs entries).outcome = Except.ok s) :
    getRepoIndex (indexCore ctx fs options db vc vs entries).db
        (options.repo.getD ctx.defaultRepoName) =
      some { repo := options.repo.getD ctx.defaultRepoName,
             source := options.source,
             last_indexed_ms := ctx.timeUpsert,
             last_error := none } := by
  simp only [indexCore] at h ⊢
  split at h
  · simp at h
  · exact getRepoIndex_upsertRepoIndex _ _ _ _ _

/-! ### Claim C1 -/

/-- Concrete search context for C1 (all oracles trivial). -/
def c1SearchCtx : SearchCtx :=
  { ftsQuery := fun _ _ _ => []
    embedQuery := fun _ => []
    vectorQuery := fun _ _ _ => []
    snippetLookup := fun _ _ _ => none }

/-- C1, counterexample. The claim says the core `search` operation rejects a
whitespace-only query before any store is touched; in fact `search` performs
no validation at all, and already in keyword mode it opens and queries the
metadata/text store for the whitespace-only query `"   "`. -/
theorem c1_search_touches_store_on_blank_query :
    jsTrim "   " = "" ∧
    (search c1SearchCtx "   " SearchMode.keyword {}).2 =
      [StoreAccess.sqliteOpen, StoreAccess.sqliteQuery] ∧
    (search c1SearchCtx "   " SearchMode.keyword {}).2 ≠ [] := by
  refine ⟨by decide, rfl, by decide⟩

/-- C1, amended. The empty/whitespace-only query is rejected one layer up:
the CLI `search` command joins and trims the query parts and, when the
result is empty, rejects without invoking the core `search` — so no store is
touched. The core `search` itself performs no such validation: in every
mode it touches at least one store regardless of the query. -/
theorem c1_blank_query_rejected_by_cli :
    (∀ (ctx : SearchCtx) (queryParts : List String) (repo : Option String)
        (limitArg : Option Nat) (semanticFlag hybridFlag : Bool),
        jsTrim (String.intercalate " " queryParts) = "" →
        cliSearchAction ctx queryParts repo limitArg semanticFlag hybridFlag =
          (CliSearchOutcome.rejected "Query string cannot be empty.", [])) ∧
    (∀ (ctx : SearchCtx) (query : String) (mode : SearchMode)
        (options : SearchOptions),
        (search ctx query mode options).2 ≠ []) := by
  constructor
  · intro ctx queryParts repo limitArg semanticFlag hybridFlag h
    unfold cliSearchAction
    simp [h]
  · intro ctx query mode options
    cases mode <;>
      simp [search, keywordSearch, semanticSearch, hybridSearch]

/-- C1, witness for the amended theorem at a concrete whitespace-only
command line. -/
theorem c1_blank_query_rejected_by_cli_witness :
    cliSearchAction c1SearchCtx [" ", ""] none none false false =
      (CliSearchOutcome.rejected "Query string cannot be empty.", []) :=
  c1_blank_query_rejected_by_cli.1 c1SearchCtx [" ", ""] none none false false
    (by decide)

/-! ### Claim C2 -/

/-- Concrete context for C2. -/
def c2Ctx : Ctx :=
  { defaultRepoName := "r", hashFn := fun b => b, embedFn := fun _ => [] }

/-- C2 failing filesystem: the candidate scan itself fails. -/
def c2FailFS : RepoFS :=
  { scan := Except.error "boom: scan failed"
    content := fun _ => []
    mtime := fun _ => 0
    size := fun _ => 0 }

/-- C2, counterexample. On a failing indexing run (the scan cannot start)
the error is re-raised, but — contrary to the claim — the
RepositoryRegistryEntry is NOT created or updated: starting from an empty
database the registry is still empty afterwards, so no failure message is
recorded anywhere. -/
theorem c2_failed_run_leaves_registry_untouched :
    (indexRepository c2Ctx c2FailFS { repo := some "r" } {} {} {}).outcome =
      Except.error "boom: scan failed" ∧
    (indexRepository c2Ctx c2FailFS { repo := some "r" } {} {} {}).db.repoIndex
      = [] := by
  exact ⟨rfl, rfl⟩

/-- C2, amended. The registry entry is created/updated only at the end of a
successful indexing run — with `error = null` and the timestamp advanced —
while a failing run re-raises the error to the caller and leaves the
`repo_index` table exactly as it was (no error message is recorded). -/
theorem c2_registry_upserted_only_on_success (ctx : Ctx) (fs : RepoFS)
    (options : IndexOptions) (db : DBState) (vc : VecCtx) (vs : VecState) :
    (∀ s, (indexRepository ctx fs options db vc vs).outcome = Except.ok s →
      getRepoIndex (indexRepository ctx fs options db vc vs).db
          (options.repo.getD ctx.defaultRepoName) =
        some { repo := options.repo.getD ctx.defaultRepoName,
               source := options.source,
               last_indexed_ms := ctx.timeUpsert,
               last_error := none }) ∧
    (∀ e, (indexRepository ctx fs options db vc vs).outcome = Except.error e →
      (indexRepository ctx fs options db vc vs).db.repoIndex = db.repoIndex) := by
  cases hscan : fs.scan with
  | error e0 =>
      rw [indexRepository_scan_error ctx fs options db vc vs e0 hscan]
      constructor
      · intro s hs
        simp at hs
      · intro e he
        rfl
  | ok entries =>
      rw [indexRepository_scan_ok ctx fs options db vc vs entries hscan]
      constructor
      · intro s hs
        exact indexCore_registry_of_ok ctx fs options db vc vs entries s hs
      · intro e he
        exact indexCore_repoIndex_of_error ctx fs options db vc vs entries e he

/-- C2, successful filesystem for the witness. -/
def c2OkFS : RepoFS :=
  { scan := Except.ok ["a.ts"]
    content := fun _ => [104]
    mtime := fun _ => 0
    size := fun _ => 1 }

/-- C2, witness for the amended theorem at a concrete successful run. -/
theorem c2_registry_upserted_only_on_success_witness :
    getRepoIndex (indexRepository c2Ctx c2OkFS { repo := some "r" } {} {} {}).db
        "r" =
      some { repo := "r", source := none, last_indexed_ms := 0,
             last_error := none } :=
  (c2_registry_upserted_only_on_success c2Ctx c2OkFS { repo := some "r" }
      {} {} {}).1
    { repo := "r", repoPath := "", filesScanned := 1, filesIndexed := 1,
      filesDeleted := 0, filesSkippedBinary := 0, filesSkippedUnchanged := 0,
      durationMs := 0 }
    (by decide)

/-! ### Claim C3 -/

/-- Concrete context for C3. -/
def c3Ctx : Ctx :=
  { defaultRepoName := "r", hashFn := fun b => b, embedFn := fun _ => [] }

/-- C3 filesystem: one non-binary candidate file, so the run stages one
update and must perform vector-store mutations. -/
def c3FS : RepoFS :=
  { scan := Except.ok ["a.ts"]
    content := fun _ => [104, 105]
    mtime := fun _ => 5
    size := fun _ => 2 }

/-- C3 conflict pattern: only the very first vector-store mutation attempt
hits a commit conflict (a transient conflict). -/
def c3Vc : VecCtx := { conflictOn := fun n => n == 0 }

/-- C3, counterexample. The claim says every vector-store mutation of an
indexing run is wrapped in the conflict-retry policy, under which a single
transient conflict would be absorbed by a retry. In fact `indexRepository`
issues its mutations directly: one transient conflict on the first mutation
fails the whole run with `Commit conflict`, while the retry wrapper
(`deleteFromLanceTable`) applied to the same transiently-conflicting store
succeeds after a single 10ms backoff. -/
theorem c3_index_run_mutations_not_retried :
    (indexRepository c3Ctx c3FS { repo := some "r" } {} c3Vc {}).outcome =
      Except.error "Commit conflict" ∧
    (deleteFromLanceTable c3Vc "r:a.ts" {}).1.1 = none ∧
    (deleteFromLanceTable c3Vc "r:a.ts" {}).2 = [10] := by
  refine ⟨by decide, rfl, rfl⟩

/-- C3, amended. The conflict-retry policy exists (`retryLanceOperation`,
used by `deleteFromLanceTable`/`addToLanceTable`): on commit conflicts it
reacquires the latest view and retries, sleeping 10ms then 20ms, for up to
3 attempts total before surfacing the error (the 40ms value of the
`2^attempt × 10ms` schedule is never reached with 3 attempts). The vector
mutations of an indexing run, however, are issued directly: on a successful
run every staged mutation is attempted exactly once, and any conflict
surfaces immediately. -/
theorem c3_retry_policy_vs_index_run :
    (∀ (vc : VecCtx) (ops : List VecOp) (vs vs' : VecState),
        runVecOps vc ops vs = (none, vs') →
        vs'.opCount = vs.opCount + ops.length) ∧
    (∀ (vc : VecCtx) (idVal : String) (vs : VecState),
        (∀ n, vc.conflictOn n = true) →
        deleteFromLanceTable vc idVal vs =
          ((some "Commit conflict", { vs with opCount := vs.opCount + 3 }),
           [10, 20])) ∧
    (∀ (idVal : String) (vs : VecState), vs.opCount = 0 →
        deleteFromLanceTable { conflictOn := fun n => n == 0 } idVal vs =
          ((none, { rows := vs.rows.filter (fun r => !(r.id == idVal)),
                    opCount := 2 }), [10])) := by
  refine ⟨fun vc ops vs vs' h => runVecOps_ok_opCount vc ops vs vs' h, ?_, ?_⟩
  · intro vc idVal vs h
    have hcc : includesCommitConflict "Commit conflict" = true := by decide
    unfold deleteFromLanceTable retryLanceOperation
    rw [show (3 : Nat) = 2 + 1 from rfl, retryLanceOperationAux]
    simp only [vecDelete, h, if_true, hcc, true_and]
    norm_num
    rw [show (2 : Nat) = 1 + 1 from rfl, retryLanceOperationAux]
    simp only [vecDelete, h, if_true, hcc, true_and]
    norm_num
    rw [show (1 : Nat) = 0 + 1 from rfl, retryLanceOperationAux]
    simp only [vecDelete, h, if_true, hcc, true_and]
    norm_num
  · intro idVal vs h
    have hcc : includesCommitConflict "Commit conflict" = true := by decide
    unfold deleteFromLanceTable retryLanceOperation
    rw [show (3 : Nat) = 2 + 1 from rfl, retryLanceOperationAux]
    simp only [vecDelete, h, hcc, true_and]
    norm_num
    rw [show (2 : Nat) = 1 + 1 from rfl, retryLanceOperationAux]
    simp only [vecDelete, h, hcc, true_and]
    norm_num

/-- C3, witness for the amended theorem: a persistently conflicting store
surfaces the error after backoffs of 10ms and 20ms. -/
theorem c3_retry_policy_vs_index_run_witness :
    deleteFromLanceTable { conflictOn := fun _ => true } "x" {} =
      ((some "Commit conflict", { rows := [], opCount := 3 }), [10, 20]) := by
  have h := (c3_retry_policy_vs_index_run.2.1 { conflictOn := fun _ => true }
    "x" {} (fun _ => rfl))
  simpa using h

/-! ### Claim C5 -/

/-- Concrete search context for C5: the vector store returns one hit that
carries neither a `_distance` nor a `score` field. -/
def c5SearchCtx : SearchCtx :=
  { ftsQuery := fun _ _ _ => []
    embedQuery := fun _ => []
    vectorQuery := fun _ _ _ =>
      [{ repo := "r", path := "p", filename := "p", mtime_ms := 0,
         size_bytes := 0, hash := [] }]
    snippetLookup := fun _ _ _ => none }

/-- C5, counterexample. A semantic hit whose raw distance is missing gets
normalized score 0 — and 0 does NOT lie in the claimed open-closed interval
(0, 1]. -/
theorem c5_missing_distance_score_zero :
    ((semanticSearch c5SearchCtx "q" {}).1.map SearchResult.score) = [0] ∧
    ¬(0 < (0 : ℚ) ∧ (0 : ℚ) ≤ 1) := by
  refine ⟨rfl, by norm_num⟩

/-- C5, amended. Every keyword/semantic hit is scored by the corresponding
normalizer on its raw rank/distance; for a present (finite) raw value the
score equals `1 / (1 + max(raw, 0))` and lies in (0, 1], while a missing
(semantic) or non-finite (keyword) raw value maps to 0, which lies outside
(0, 1]. -/
theorem c5_normalized_scores :
    (∀ b : ℚ, normalizeKeywordScore (some b) = 1 / (1 + max b 0) ∧
        0 < normalizeKeywordScore (some b) ∧ normalizeKeywordScore (some b) ≤ 1) ∧
    normalizeKeywordScore none = 0 ∧
    (∀ d : ℚ, normalizeSemanticScore (some d) = 1 / (1 + max d 0) ∧
        0 < normalizeSemanticScore (some d) ∧ normalizeSemanticScore (some d) ≤ 1) ∧
    normalizeSemanticScore none = 0 ∧
    (∀ (ctx : SearchCtx) (query : String) (options : SearchOptions),
        ((keywordSearch ctx query options).1.map SearchResult.score) =
          (ctx.ftsQuery query options.repo (options.limit.getD 20)).map
            (fun row => normalizeKeywordScore row.bm25)) ∧
    (∀ (ctx : SearchCtx) (query : String) (options : SearchOptions),
        ((semanticSearch ctx query options).1.map SearchResult.score) =
          (ctx.vectorQuery (ctx.embedQuery query) options.repo
              (options.limit.getD 20)).map
            (fun row => normalizeSemanticScore (row._distance <|> row.score))) := by
  have hb : ∀ q : ℚ, 0 < 1 + max q 0 := by
    intro q
    have : (0 : ℚ) ≤ max q 0 := le_max_right q 0
    linarith
  refine ⟨?_, rfl, ?_, rfl, ?_, ?_⟩
  · intro b
    refine ⟨rfl, ?_, ?_⟩
    · exact div_pos one_pos (hb b)
    · rw [normalizeKeywordScore, div_le_one (hb b)]
      have : (0 : ℚ) ≤ max b 0 := le_max_right b 0
      linarith
  · intro d
    refine ⟨rfl, ?_, ?_⟩
    · exact div_pos one_pos (hb d)
    · rw [normalizeSemanticScore, div_le_one (hb d)]
      have : (0 : ℚ) ≤ max d 0 := le_max_right d 0
      linarith
  · intro ctx query options
    simp only [keywordSearch, List.map_map]
    rfl
  · intro ctx query options
    simp only [semanticSearch, List.map_map]
    rfl

/-- C5, witness for the amended theorem at a concrete finite rank. -/
theorem c5_normalized_scores_witness :
    0 < normalizeKeywordScore (some 4) ∧ normalizeKeywordScore (some 4) ≤ 1 :=
  ⟨(c5_normalized_scores.1 4).2.1, (c5_normalized_scores.1 4).2.2⟩

/-! ### Projections of a run with a successful scan -/

/-- The records a run with candidate list `entries` stages for deletion. -/
def removedRecordsOf (ctx : Ctx) (fs : RepoFS) (options : IndexOptions)
    (db : DBState) (entries : List String) : List (Nat × String) :=
  ((existingRecordsFor db (options.repo.getD ctx.defaultRepoName)).filter
      (fun r => !((entries.filter (fun p => !entryBinary fs p)).contains r.path))).map
    (fun r => (r.id, r.path))

theorem indexRepository_pending (ctx : Ctx) (fs : RepoFS) (options : IndexOptions)
    (db : DBState) (vc : VecCtx) (vs : VecState) (entries : List String)
    (hscan : fs.scan = Except.ok entries) :
    (indexRepository ctx fs options db vc vs).pending =
      (entries.filter (entryStaged ctx fs (options.force.getD false)
          (fun p => existingByPath db (options.repo.getD ctx.defaultRepoName) p))).map
        (mkPendingUpdate ctx fs (options.repo.getD ctx.defaultRepoName)) := by
  rw [indexRepository_scan_ok ctx fs options db vc vs entries hscan]
  simp only [indexCore]
  split <;> (rw [runEntries_spec]; simp)

theorem indexRepository_embedCalls (ctx : Ctx) (fs : RepoFS)
    (options : IndexOptions) (db : DBState) (vc : VecCtx) (vs : VecState)
    (entries : List String) (hscan : fs.scan = Except.ok entries) :
    (indexRepository ctx fs options db vc vs).embedCalls =
      (entries.filter (entryStaged ctx fs (options.force.getD false)
          (fun p => existingByPath db (options.repo.getD ctx.defaultRepoName) p))).map
        (fun p => (p, (fs.content p).take MAX_INDEXED_BYTES)) := by
  rw [indexRepository_scan_ok ctx fs options db vc vs entries hscan]
  simp only [indexCore]
  split <;> (rw [runEntries_spec]; simp)

theorem indexRepository_removed (ctx : Ctx) (fs : RepoFS)
    (options : IndexOptions) (db : DBState) (vc : VecCtx) (vs : VecState)
    (entries : List String) (hscan : fs.scan = Except.ok entries) :
    (indexRepository ctx fs options db vc vs).removed =
      removedRecordsOf ctx fs options db entries := by
  rw [indexRepository_scan_ok ctx fs options db vc vs entries hscan]
  simp only [indexCore, removedRecordsOf]
  split <;> (rw [runEntries_spec]; simp)

theorem indexRepository_ok_summary (ctx : Ctx) (fs : RepoFS)
    (options : IndexOptions) (db : DBState) (vc : VecCtx) (vs : VecState)
    (entries : List String) (s : IndexSummary)
    (hscan : fs.scan = Except.ok entries)
    (h : (indexRepository ctx fs options db vc vs).outcome = Except.ok s) :
    s = { repo := options.repo.getD ctx.defaultRepoName
          repoPath := fs.repoPath
          filesScanned := entries.length
          filesIndexed := (entries.filter (entryStaged ctx fs
            (options.force.getD false)
            (fun p => existingByPath db
              (options.repo.getD ctx.defaultRepoName) p))).length
          filesDeleted := (removedRecordsOf ctx fs options db entries).length
          filesSkippedBinary := (entries.filter (entryBinary fs)).length
          filesSkippedUnchanged := (entries.filter (fun p =>
            !entryBinary fs p && entryUnchanged ctx fs
              (options.force.getD false)
              (fun q => existingByPath db
                (options.repo.getD ctx.defaultRepoName) q) p)).length
          durationMs := ctx.timeEnd - ctx.timeStart } := by
  rw [indexRepository_scan_ok ctx fs options db vc vs entries hscan] at h
  simp only [indexCore] at h
  split at h
  · simp at h
  · rw [runEntries_spec] at h
    simp only [Except.ok.injEq] at h
    rw [← h]
    simp [removedRecordsOf]

/-! ### Claim C10 -/

/-- C10. Every indexing run that returns a summary satisfies
`filesScanned = filesIndexed + filesSkippedBinary + filesSkippedUnchanged`:
each scanned candidate lands in exactly one of the indexed, skipped-binary
or skipped-unchanged buckets (deleted files are counted separately). -/
theorem c10_scanned_partitioned (ctx : Ctx) (fs : RepoFS)
    (options : IndexOptions) (db : DBState) (vc : VecCtx) (vs : VecState)
    (s : IndexSummary)
    (h : (indexRepository ctx fs options db vc vs).outcome = Except.ok s) :
    s.filesScanned = s.filesIndexed + s.filesSkippedBinary +
      s.filesSkippedUnchanged := by
  cases hscan : fs.scan with
  | error e =>
      rw [indexRepository_scan_error ctx fs options db vc vs e hscan] at h
      simp at h
  | ok entries =>
      have hs := indexRepository_ok_summary ctx fs options db vc vs entries s
        hscan h
      rw [hs]
      have hpart := length_filter_partition (entryBinary fs)
        (entryUnchanged ctx fs (options.force.getD false)
          (fun q => existingByPath db
            (options.repo.getD ctx.defaultRepoName) q)) entries
      have hstag : entries.filter (fun p => !entryBinary fs p &&
            !entryUnchanged ctx fs (options.force.getD false)
              (fun q => existingByPath db
                (options.repo.getD ctx.defaultRepoName) q) p) =
          entries.filter (entryStaged ctx fs (options.force.getD false)
            (fun p => existingByPath db
              (options.repo.getD ctx.defaultRepoName) p)) := rfl
      rw [hstag] at hpart
      simp only []
      omega

/-- C10 filesystem for the witness: an empty candidate scan. -/
def c10FS : RepoFS :=
  { scan := Except.ok []
    content := fun _ => []
    mtime := fun _ => 0
    size := fun _ => 0 }

/-- C10 context for the witness. -/
def c10Ctx : Ctx :=
  { defaultRepoName := "r", hashFn := fun b => b, embedFn := fun _ => [] }

/-- C10, witness at a concrete run. -/
theorem c10_scanned_partitioned_witness :
    ∃ s, (indexRepository c10Ctx c10FS { repo := some "r" } {} {} {}).outcome =
        Except.ok s ∧
      s.filesScanned = s.filesIndexed + s.filesSkippedBinary +
        s.filesSkippedUnchanged := by
  refine ⟨{ repo := "r", repoPath := "", filesScanned := 0, filesIndexed := 0,
            filesDeleted := 0, filesSkippedBinary := 0,
            filesSkippedUnchanged := 0, durationMs := 0 }, by decide, ?_⟩
  exact c10_scanned_partitioned c10Ctx c10FS { repo := some "r" } {} {} {} _
    (by decide)

/-! ### Claim C6 -/

theorem indexRepository_noconflict_ok (ctx : Ctx) (fs : RepoFS)
    (options : IndexOptions) (db : DBState) (vc : VecCtx) (vs : VecState)
    (entries : List String) (hscan : fs.scan = Except.ok entries)
    (hnc : ∀ n, vc.conflictOn n = false) :
    ∃ s, (indexRepository ctx fs options db vc vs).outcome = Except.ok s := by
  rw [indexRepository_scan_ok ctx fs options db vc vs entries hscan]
  simp only [indexCore]
  rw [runVecOps_noconflict vc hnc]
  exact ⟨_, rfl⟩

/-- C6. Idempotence on unchanged input: a run with `force = false` in which
every non-binary candidate has an existing FileRecord whose hash equals the
hash of the candidate's current content (and no vector-store conflicts
occur) completes with `filesIndexed = 0`, `filesSkippedUnchanged = N` where
`N` counts the non-binary candidates, and computes no embedding at all. -/
theorem c6_unchanged_reindex_is_idempotent (ctx : Ctx) (fs : RepoFS)
    (options : IndexOptions) (db : DBState) (vc : VecCtx) (vs : VecState)
    (entries : List String)
    (hscan : fs.scan = Except.ok entries)
    (hforce : options.force.getD false = false)
    (hnc : ∀ n, vc.conflictOn n = false)
    (hmatch : ∀ p ∈ entries, isBinaryBuffer (fs.content p) = false →
        ∃ rec, existingByPath db (options.repo.getD ctx.defaultRepoName) p =
            some rec ∧
          rec.hash = ctx.hashFn (fs.content p)) :
    ∃ s, (indexRepository ctx fs options db vc vs).outcome = Except.ok s ∧
      s.filesIndexed = 0 ∧
      s.filesSkippedUnchanged =
        (entries.filter (fun p => !isBinaryBuffer (fs.content p))).length ∧
      (indexRepository ctx fs options db vc vs).embedCalls = [] := by
  have hstaged : entries.filter (entryStaged ctx fs (options.force.getD false)
      (fun p => existingByPath db (options.repo.getD ctx.defaultRepoName) p)) =
      [] := by
    rw [List.filter_eq_nil_iff]
    intro p hp
    by_cases hbin : entryBinary fs p = true
    · simp [entryStaged, hbin]
    · have hbin' : isBinaryBuffer (fs.content p) = false := by
        simpa [entryBinary] using hbin
      rcases hmatch p hp hbin' with ⟨rec, hrec, hhash⟩
      simp [entryStaged, entryBinary, hbin', entryUnchanged, hrec, hhash,
        hforce]
  obtain ⟨s, hok⟩ := indexRepository_noconflict_ok ctx fs options db vc vs
    entries hscan hnc
  have hs := indexRepository_ok_summary ctx fs options db vc vs entries s
    hscan hok
  refine ⟨s, hok, ?_, ?_, ?_⟩
  · rw [hs]
    simp [hstaged]
  · rw [hs]
    simp only []
    congr 1
    refine List.filter_congr ?_
    intro p hp
    by_cases hbin : entryBinary fs p = true
    · simp [hbin, entryBinary] at *
      simp [hbin]
    · have hbin' : isBinaryBuffer (fs.content p) = false := by
        simpa [entryBinary] using hbin
      rcases hmatch p hp hbin' with ⟨rec, hrec, hhash⟩
      simp [entryBinary, hbin', entryUnchanged, hrec, hhash, hforce]
  · rw [indexRepository_embedCalls ctx fs options db vc vs entries hscan,
      hstaged]
    rfl

/-- C6 context for the witness. -/
def c6Ctx : Ctx :=
  { defaultRepoName := "r", hashFn := fun b => b, embedFn := fun _ => [] }

/-- C6 filesystem for the witness: one unchanged text file. -/
def c6FS : RepoFS :=
  { scan := Except.ok ["a.ts"]
    content := fun _ => [104]
    mtime := fun _ => 0
    size := fun _ => 1 }

/-- C6 database for the witness: the FileRecord of the previous run. -/
def c6DB : DBState :=
  { fileMeta := [{ id := 1, repo := "r", path := "a.ts", filename := "a.ts",
                   mtime_ms := 0, size_bytes := 1, hash := [104] }]
    fileFts := [{ rowid := 1, repo := "r", path := "a.ts",
                  filename := "a.ts", contents := [104] }]
    repoIndex := []
    nextId := 2 }

/-- C6, witness at a concrete unchanged tree. -/
theorem c6_unchanged_reindex_is_idempotent_witness :
    ∃ s, (indexRepository c6Ctx c6FS { repo := some "r" } c6DB {} {}).outcome =
        Except.ok s ∧
      s.filesIndexed = 0 ∧
      s.filesSkippedUnchanged =
        (["a.ts"].filter (fun p => !isBinaryBuffer (c6FS.content p))).length ∧
      (indexRepository c6Ctx c6FS { repo := some "r" } c6DB {} {}).embedCalls =
        [] := by
  refine c6_unchanged_reindex_is_idempotent c6Ctx c6FS { repo := some "r" }
    c6DB {} {} ["a.ts"] rfl rfl (fun _ => rfl) ?_
  intro p hp _
  have hp' : p = "a.ts" := by simpa using hp
  subst hp'
  exact ⟨{ id := 1, repo := "r", path := "a.ts", filename := "a.ts",
           mtime_ms := 0, size_bytes := 1, hash := [104] },
    by decide, by decide⟩

/-! ### Claim C7 -/

/-- C7. For every staged (indexed) file the stored hash is the digest of the
full uncapped byte sequence, while the stored full-text contents and the
embedding are computed over only the capped 64 KiB prefix. Consequently,
whenever the digest is injective (the idealized cryptographic hash), a file
whose current content differs anywhere — including beyond the cap — from
the content recorded in its FileRecord is staged for re-indexing and is
re-embedded. -/
theorem c7_hash_full_contents_capped :
    (∀ (ctx : Ctx) (fs : RepoFS) (options : IndexOptions) (db : DBState)
        (vc : VecCtx) (vs : VecState),
        ∀ u ∈ (indexRepository ctx fs options db vc vs).pending,
          u.meta.hash = ctx.hashFn (fs.content u.meta.path) ∧
          u.contents = (fs.content u.meta.path).take MAX_INDEXED_BYTES ∧
          u.embedding =
            ctx.embedFn ((fs.content u.meta.path).take MAX_INDEXED_BYTES)) ∧
    (∀ (ctx : Ctx) (fs : RepoFS) (options : IndexOptions) (db : DBState)
        (vc : VecCtx) (vs : VecState) (entries : List String) (p : String)
        (rec : MetaRow) (c : Bytes),
        fs.scan = Except.ok entries → p ∈ entries →
        Function.Injective ctx.hashFn →
        isBinaryBuffer (fs.content p) = false →
        existingByPath db (options.repo.getD ctx.defaultRepoName) p =
          some rec →
        rec.hash = ctx.hashFn c →
        c ≠ fs.content p →
        p ∈ (indexRepository ctx fs options db vc vs).pending.map
            (fun u => u.meta.path) ∧
        (p, (fs.content p).take MAX_INDEXED_BYTES) ∈
          (indexRepository ctx fs options db vc vs).embedCalls) := by
  constructor
  · intro ctx fs options db vc vs u hu
    cases hscan : fs.scan with
    | error e =>
        rw [indexRepository_scan_error ctx fs options db vc vs e hscan] at hu
        simp at hu
    | ok entries =>
        rw [indexRepository_pending ctx fs options db vc vs entries hscan]
          at hu
        rcases List.mem_map.mp hu with ⟨p, _, hmk⟩
        rw [← hmk]
        exact ⟨rfl, rfl, rfl⟩
  · intro ctx fs options db vc vs entries p rec c hscan hp hinj hbin hrec
      hhash hne
    have hstag : entryStaged ctx fs (options.force.getD false)
        (fun q => existingByPath db (options.repo.getD ctx.defaultRepoName) q)
        p = true := by
      have hbe : (rec.hash == ctx.hashFn (fs.content p)) = false := by
        rw [hhash]
        by_contra hcontra
        have heq : ctx.hashFn c = ctx.hashFn (fs.content p) := by
          have := Bool.not_eq_false _ |>.mp hcontra
          exact beq_iff_eq.mp this
        exact hne (hinj heq)
      simp [entryStaged, entryBinary, hbin, entryUnchanged, hrec, hbe]
    have hmem : p ∈ entries.filter (entryStaged ctx fs
        (options.force.getD false)
        (fun q => existingByPath db
          (options.repo.getD ctx.defaultRepoName) q)) :=
      List.mem_filter.mpr ⟨hp, hstag⟩
    constructor
    · rw [indexRepository_pending ctx fs options db vc vs entries hscan]
      rw [List.map_map]
      exact List.mem_map.mpr ⟨p, hmem, rfl⟩
    · rw [indexRepository_embedCalls ctx fs options db vc vs entries hscan]
      exact List.mem_map.mpr ⟨p, hmem, rfl⟩

/-- C7, witness: with the identity digest, changing the single byte of a
one-byte file triggers re-staging and re-embedding of that file. -/
theorem c7_hash_full_contents_capped_witness :
    "a.ts" ∈ (indexRepository c6Ctx
        { scan := Except.ok ["a.ts"], content := fun _ => [105],
          mtime := fun _ => 0, size := fun _ => 1 }
        { repo := some "r" } c6DB {} {}).pending.map (fun u => u.meta.path) ∧
    ("a.ts", [105]) ∈ (indexRepository c6Ctx
        { scan := Except.ok ["a.ts"], content := fun _ => [105],
          mtime := fun _ => 0, size := fun _ => 1 }
        { repo := some "r" } c6DB {} {}).embedCalls := by
  have h := c7_hash_full_contents_capped.2 c6Ctx
    { scan := Except.ok ["a.ts"], content := fun _ => [105],
      mtime := fun _ => 0, size := fun _ => 1 }
    { repo := some "r" } c6DB {} {} ["a.ts"] "a.ts"
    { id := 1, repo := "r", path := "a.ts", filename := "a.ts",
      mtime_ms := 0, size_bytes := 1, hash := [104] }
    [104] rfl (by decide) (fun _ _ hab => hab) (by decide) (by decide)
    (by decide) (by decide)
  simpa using h

/-! ### Claim C8 -/

/-- C8. Binary classification: over the sample of (up to) the first 1024
bytes, any null byte classifies binary immediately; otherwise the file is
binary exactly when the suspicious-byte count (control characters outside
the 7..13 whitespace range, or byte value 255) exceeds 30% of the sample —
the integer test `10 * count > 3 * length` agreeing with the rational
ratio test. A file classified binary is never staged, never embedded, and
is counted under skipped-binary. -/
theorem c8_binary_classification :
    (∀ buffer : Bytes,
        (0 ∈ buffer.take 1024 → isBinaryBuffer buffer = true) ∧
        (0 ∉ buffer.take 1024 →
          (isBinaryBuffer buffer = true ↔
            10 * ((buffer.take 1024).filter suspiciousByte).length >
              3 * (buffer.take 1024).length))) ∧
    (∀ count len : Nat, 0 < len →
        ((count : ℚ) / (len : ℚ) > 3 / 10 ↔ 10 * count > 3 * len)) ∧
    (∀ (ctx : Ctx) (fs : RepoFS) (options : IndexOptions) (db : DBState)
        (vc : VecCtx) (vs : VecState) (entries : List String)
        (s : IndexSummary),
        fs.scan = Except.ok entries →
        (indexRepository ctx fs options db vc vs).outcome = Except.ok s →
        s.filesSkippedBinary =
          (entries.filter (fun p => isBinaryBuffer (fs.content p))).length) ∧
    (∀ (ctx : Ctx) (fs : RepoFS) (options : IndexOptions) (db : DBState)
        (vc : VecCtx) (vs : VecState) (entries : List String) (p : String),
        fs.scan = Except.ok entries → p ∈ entries →
        isBinaryBuffer (fs.content p) = true →
        (∀ u ∈ (indexRepository ctx fs options db vc vs).pending,
          u.meta.path ≠ p) ∧
        (∀ call ∈ (indexRepository ctx fs options db vc vs).embedCalls,
          call.1 ≠ p)) := by
  refine ⟨?_, ?_, ?_, ?_⟩
  · intro buffer
    constructor
    · intro h0
      have hne : buffer.length ≠ 0 := by
        intro hlen
        rw [List.length_eq_zero] at hlen
        subst hlen
        simp at h0
      have hcontains : (buffer.take 1024).contains 0 = true := by
        simpa [List.contains] using h0
      rw [isBinaryBuffer]
      rw [if_neg hne]
      simp only [binaryScan_sawNull, hcontains, if_true]
    · intro h0
      by_cases hlen : buffer.length = 0
      · rw [List.length_eq_zero] at hlen
        subst hlen
        simp [isBinaryBuffer]
      · rw [isBinaryBuffer, if_neg hlen]
        have hcontains : (buffer.take 1024).contains 0 = false := by
          by_contra hc
          have : (buffer.take 1024).contains 0 = true := by
            simpa using hc
          exact h0 (by simpa [List.contains] using this)
        simp only [binaryScan_sawNull, hcontains, Bool.false_eq_true,
          if_false]
        rw [binaryScan_count_of_no_null _ h0]
        simp
  · intro count len hlen
    have hlen' : (0 : ℚ) < (len : ℚ) := by exact_mod_cast hlen
    rw [gt_iff_lt, div_lt_div_iff₀ (by norm_num) hlen']
    constructor
    · intro h
      have h' : (3 : ℚ) * len < count * 10 := h
      have : (3 * len : ℚ) < (10 * count : ℚ) := by linarith
      exact_mod_cast this
    · intro h
      have : (3 * len : ℚ) < (10 * count : ℚ) := by exact_mod_cast h
      linarith
  · intro ctx fs options db vc vs entries s hscan h
    have hs := indexRepository_ok_summary ctx fs options db vc vs entries s
      hscan h
    rw [hs]
    rfl
  · intro ctx fs options db vc vs entries p hscan hp hbin
    constructor
    · intro u hu
      rw [indexRepository_pending ctx fs options db vc vs entries hscan]
        at hu
      rcases List.mem_map.mp hu with ⟨q, hq, hmk⟩
      have hqstag := (List.mem_filter.mp hq).2
      intro hpath
      have hq' : q = p := by
        rw [← hmk] at hpath
        exact hpath
      rw [hq'] at hqstag
      simp [entryStaged, entryBinary, hbin] at hqstag
    · intro call hcall
      rw [indexRepository_embedCalls ctx fs options db vc vs entries hscan]
        at hcall
      rcases List.mem_map.mp hcall with ⟨q, hq, hmk⟩
      have hqstag := (List.mem_filter.mp hq).2
      intro hpath
      have hq' : q = p := by
        rw [← hmk] at hpath
        exact hpath
      rw [hq'] at hqstag
      simp [entryStaged, entryBinary, hbin] at hqstag

/-- C8, witness: a buffer starting with a null byte is classified binary. -/
theorem c8_binary_classification_witness :
    isBinaryBuffer [0, 104, 105] = true :=
  (c8_binary_classification.1 [0, 104, 105]).1 (by decide)

/-! ### Claim C9 -/

theorem string_data_injective : ∀ {a b : String}, a.data = b.data → a = b := by
  intro a b h
  cases a
  cases b
  exact congrArg String.mk h

theorem toVectorId_right_inj (r : String) {a b : String}
    (h : toVectorId r a = toVectorId r b) : a = b := by
  unfold toVectorId at h
  have hd : (r ++ ":").data ++ a.data = (r ++ ":").data ++ b.data :=
    congrArg String.data h
  exact string_data_injective (List.append_cancel_left hd)

theorem fileMeta_upsertRepoIndex (db : DBState) (repo : String)
    (source : Option String) (timestamp : Int) (error : Option String) :
    (upsertRepoIndex db repo source timestamp error).fileMeta = db.fileMeta := by
  unfold upsertRepoIndex
  split <;> rfl

theorem fileFts_upsertRepoIndex (db : DBState) (repo : String)
    (source : Option String) (timestamp : Int) (error : Option String) :
    (upsertRepoIndex db repo source timestamp error).fileFts = db.fileFts := by
  unfold upsertRepoIndex
  split <;> rfl

theorem indexRepository_noconflict_fields (ctx : Ctx) (fs : RepoFS)
    (options : IndexOptions) (db : DBState) (vc : VecCtx) (vs : VecState)
    (entries : List String) (hscan : fs.scan = Except.ok entries)
    (hnc : ∀ n, vc.conflictOn n = false) :
    (indexRepository ctx fs options db vc vs).db.fileMeta =
      (runTransaction db
        ((entries.filter (entryStaged ctx fs (options.force.getD false)
            (fun p => existingByPath db
              (options.repo.getD ctx.defaultRepoName) p))).map
          (mkPendingUpdate ctx fs (options.repo.getD ctx.defaultRepoName)))
        (removedRecordsOf ctx fs options db entries)).fileMeta ∧
    (indexRepository ctx fs options db vc vs).db.fileFts =
      (runTransaction db
        ((entries.filter (entryStaged ctx fs (options.force.getD false)
            (fun p => existingByPath db
              (options.repo.getD ctx.defaultRepoName) p))).map
          (mkPendingUpdate ctx fs (options.repo.getD ctx.defaultRepoName)))
        (removedRecordsOf ctx fs options db entries)).fileFts ∧
    (indexRepository ctx fs options db vc vs).vec.rows =
      applyVecOpsPure
        (vectorOps (options.repo.getD ctx.defaultRepoName)
          ((entries.filter (entryStaged ctx fs (options.force.getD false)
              (fun p => existingByPath db
                (options.repo.getD ctx.defaultRepoName) p))).map
            (mkPendingUpdate ctx fs (options.repo.getD ctx.defaultRepoName)))
          (removedRecordsOf ctx fs options db entries)) vs.rows := by
  rw [indexRepository_scan_ok ctx fs options db vc vs entries hscan]
  simp only [indexCore, removedRecordsOf]
  rw [runEntries_spec, runVecOps_noconflict vc hnc]
  simp [fileMeta_upsertRepoIndex, fileFts_upsertRepoIndex]

/-- C9 context for the counterexample and witness. -/
def c9Ctx : Ctx :=
  { defaultRepoName := "r", hashFn := fun b => b, embedFn := fun _ => [] }

/-- C9 filesystem: the previously indexed text file `p.ts` now has binary
content (it contains a null byte). -/
def c9FS : RepoFS :=
  { scan := Except.ok ["p.ts"]
    content := fun _ => [0, 1, 2]
    mtime := fun _ => 0
    size := fun _ => 3 }

/-- C9 database: the prior FileRecord and TextIndexEntry of `p.ts`. -/
def c9DB : DBState :=
  { fileMeta := [{ id := 1, repo := "r", path := "p.ts", filename := "p.ts",
                   mtime_ms := 0, size_bytes := 1, hash := [1] }]
    fileFts := [{ rowid := 1, repo := "r", path := "p.ts",
                  filename := "p.ts", contents := [1] }]
    repoIndex := []
    nextId := 2 }

/-- C9 vector store: the prior VectorEntry of `p.ts`. -/
def c9Vec : VecState :=
  { rows := [{ id := "r:p.ts", repo := "r", path := "p.ts",
               filename := "p.ts", mtime_ms := 0, size_bytes := 1,
               hash := [1], vector := [] }]
    opCount := 0 }

/-- C9, counterexample. A path with prior index state that is classified
binary in the current run IS deleted: the run completes, counts the file
under skipped-binary, and removes its FileRecord, TextIndexEntry and
VectorEntry — contrary to the claim that prior state is not deleted. -/
theorem c9_prior_state_of_binary_file_deleted :
    (indexRepository c9Ctx c9FS { repo := some "r" } c9DB {} c9Vec).outcome =
      Except.ok
        { repo := "r", repoPath := "", filesScanned := 1, filesIndexed := 0,
          filesDeleted := 1, filesSkippedBinary := 1,
          filesSkippedUnchanged := 0, durationMs := 0 } ∧
    (indexRepository c9Ctx c9FS { repo := some "r" } c9DB {} c9Vec).db.fileMeta
      = [] ∧
    (indexRepository c9Ctx c9FS { repo := some "r" } c9DB {} c9Vec).db.fileFts
      = [] ∧
    (indexRepository c9Ctx c9FS { repo := some "r" } c9DB {} c9Vec).vec.rows
      = [] := by
  refine ⟨by decide, by decide, by decide, by decide⟩

/-- C9, amended. A candidate with an existing FileRecord that is classified
binary in the current run is counted and excluded from indexing, but —
because binary files are not added to the seen set — the end-of-run
reconciliation stages it for deletion and removes its FileRecord,
TextIndexEntry and VectorEntry. -/
theorem c9_binary_reclassification_deletes (ctx : Ctx) (fs : RepoFS)
    (options : IndexOptions) (db : DBState) (vc : VecCtx) (vs : VecState)
    (entries : List String) (p : String) (rec : MetaRow)
    (hscan : fs.scan = Except.ok entries)
    (_hp : p ∈ entries)
    (hbin : isBinaryBuffer (fs.content p) = true)
    (hrec : rec ∈ db.fileMeta)
    (hrepo : rec.repo = options.repo.getD ctx.defaultRepoName)
    (hpath : rec.path = p)
    (hpairs : (db.fileMeta.map (fun r => (r.repo, r.path))).Nodup)
    (hfts : ∀ f ∈ db.fileFts,
      f.repo = options.repo.getD ctx.defaultRepoName → f.path = p →
      f.rowid = rec.id)
    (hnc : ∀ n, vc.conflictOn n = false) :
    (rec.id, p) ∈ (indexRepository ctx fs options db vc vs).removed ∧
    (∀ r ∈ (indexRepository ctx fs options db vc vs).db.fileMeta,
      ¬(r.repo = options.repo.getD ctx.defaultRepoName ∧ r.path = p)) ∧
    (∀ f ∈ (indexRepository ctx fs options db vc vs).db.fileFts,
      ¬(f.repo = options.repo.getD ctx.defaultRepoName ∧ f.path = p)) ∧
    (∀ v ∈ (indexRepository ctx fs options db vc vs).vec.rows,
      v.id ≠ toVectorId (options.repo.getD ctx.defaultRepoName) p) := by
  have hrecEx : rec ∈ existingRecordsFor db
      (options.repo.getD ctx.defaultRepoName) := by
    unfold existingRecordsFor
    exact List.mem_filter.mpr ⟨hrec, by simp [hrepo]⟩
  have hnotseen :
      ((entries.filter (fun q => !entryBinary fs q)).contains rec.path) =
        false := by
    rw [hpath]
    by_contra hc
    have hmem : p ∈ entries.filter (fun q => !entryBinary fs q) := by
      have hc' : (entries.filter (fun q => !entryBinary fs q)).contains p =
          true := by
        simpa using hc
      simpa [List.contains, List.elem_iff] using hc'
    have := (List.mem_filter.mp hmem).2
    simp [entryBinary, hbin] at this
  have hremoved : (rec.id, p) ∈ removedRecordsOf ctx fs options db entries := by
    unfold removedRecordsOf
    refine List.mem_map.mpr ⟨rec, List.mem_filter.mpr ⟨hrecEx, ?_⟩, ?_⟩
    · simp only [hnotseen, Bool.not_false]
    · rw [hpath]
  have hfields := indexRepository_noconflict_fields ctx fs options db vc vs
    entries hscan hnc
  have hstagedpath : ∀ u ∈ (entries.filter (entryStaged ctx fs
      (options.force.getD false)
      (fun q => existingByPath db
        (options.repo.getD ctx.defaultRepoName) q))).map
        (mkPendingUpdate ctx fs (options.repo.getD ctx.defaultRepoName)),
      u.meta.path ≠ p := by
    intro u hu
    rcases List.mem_map.mp hu with ⟨q, hq, hmk⟩
    have hqstag := (List.mem_filter.mp hq).2
    intro hpq
    have hq' : q = p := by rw [← hmk] at hpq; exact hpq
    rw [hq'] at hqstag
    simp [entryStaged, entryBinary, hbin] at hqstag
  refine ⟨?_, ?_, ?_, ?_⟩
  · rw [indexRepository_removed ctx fs options db vc vs entries hscan]
    exact hremoved
  · intro r hr
    rintro ⟨hrrepo, hrpath⟩
    rw [hfields.1] at hr
    unfold runTransaction at hr
    have hdel := mem_fileMeta_foldl_applyDeletion _ _ r hr
    have hrid : r.id ≠ rec.id := hdel.2 (rec.id, p) hremoved
    rcases mem_fileMeta_foldl_applyUpdate _ db r hdel.1 with h | h
    · rcases h with ⟨r0, hr0, hid, hrepo0, hpath0⟩
      have hr0pair : (r0.repo, r0.path) = (rec.repo, rec.path) := by
        rw [← hrepo0, ← hpath0, hrrepo, hrpath, hrepo, hpath]
      have hr0rec : r0 = rec :=
        List.inj_on_of_nodup_map hpairs hr0 hrec hr0pair
      rw [hr0rec] at hid
      exact hrid hid
    · rcases h with ⟨u, hu, _, hupath⟩
      exact hstagedpath u hu (by rw [← hupath, hrpath])
  · intro f hf
    rintro ⟨hfrepo, hfpath⟩
    rw [hfields.2.1] at hf
    unfold runTransaction at hf
    have hdel := mem_fileFts_foldl_applyDeletion _ _ f hf
    have hfid : f.rowid ≠ rec.id := hdel.2 (rec.id, p) hremoved
    rcases mem_fileFts_foldl_applyUpdate _ db f hdel.1 with h | h
    · exact hfid (hfts f h hfrepo hfpath)
    · rcases h with ⟨u, hu, _, hupath⟩
      exact hstagedpath u hu (by rw [← hupath, hfpath])
  · rw [hfields.2.2]
    refine applyVecOpsPure_no_id _ _ _ ?_ (Or.inl ?_)
    · intro nr hnr x hx
      rcases List.mem_append.mp hnr with h | h
      · rcases List.mem_map.mp h with ⟨rm, _, habs⟩
        cases habs
      · by_cases hpend : ((entries.filter (entryStaged ctx fs
            (options.force.getD false)
            (fun q => existingByPath db
              (options.repo.getD ctx.defaultRepoName) q))).map
            (mkPendingUpdate ctx fs
              (options.repo.getD ctx.defaultRepoName))).isEmpty
        · rw [if_pos hpend] at h
          simp at h
        · rw [if_neg hpend] at h
          rcases List.mem_append.mp h with h1 | h1
          · rcases List.mem_map.mp h1 with ⟨fl, _, habs⟩
            cases habs
          · have hnr' : nr = ((entries.filter (entryStaged ctx fs
                (options.force.getD false)
                (fun q => existingByPath db
                  (options.repo.getD ctx.defaultRepoName) q))).map
                (mkPendingUpdate ctx fs
                  (options.repo.getD ctx.defaultRepoName))).map
                (fun u => VecRow.mk
                  (toVectorId (options.repo.getD ctx.defaultRepoName)
                    u.meta.path)
                  (options.repo.getD ctx.defaultRepoName) u.meta.path
                  u.meta.filename u.meta.mtime_ms u.meta.size_bytes
                  u.meta.hash u.embedding) := by
              rcases List.mem_singleton.mp h1 with h2
              injection h2
            rw [hnr'] at hx
            rcases List.mem_map.mp hx with ⟨u, hu, hrow⟩
            intro hxid
            rw [← hrow] at hxid
            exact hstagedpath u hu (toVectorId_right_inj _ hxid)
    · refine List.mem_append.mpr (Or.inl ?_)
      exact List.mem_map.mpr ⟨(rec.id, p), hremoved, rfl⟩

/-- C9, witness for the amended theorem at the concrete scenario of the
counterexample. -/
theorem c9_binary_reclassification_deletes_witness :
    ((1 : Nat), "p.ts") ∈
      (indexRepository c9Ctx c9FS { repo := some "r" } c9DB {} c9Vec).removed ∧
    (∀ v ∈ (indexRepository c9Ctx c9FS { repo := some "r" } c9DB {}
        c9Vec).vec.rows, v.id ≠ toVectorId "r" "p.ts") := by
  have h := c9_binary_reclassification_deletes c9Ctx c9FS { repo := some "r" }
    c9DB {} c9Vec ["p.ts"] "p.ts"
    { id := 1, repo := "r", path := "p.ts", filename := "p.ts",
      mtime_ms := 0, size_bytes := 1, hash := [1] }
    rfl (by decide) (by decide) (by decide) rfl rfl (by decide) (by decide)
    (fun _ => rfl)
  exact ⟨h.1, h.2.2.2⟩

/-! ### Association-list lemmas for the hybrid combined map -/

theorem find?_pair_map_set (k k' : String) (v : SearchResult) (hne : k' ≠ k) :
    ∀ m : List (String × SearchResult),
      ((m.map (fun p => if p.1 == k then (k, v) else p)).find?
        (fun p => p.1 == k')) = m.find? (fun p => p.1 == k')
  | [] => rfl
  | p :: rest => by
      by_cases hp : (p.1 == k) = true
      · have hk : (k == k') = false := by
          simp [beq_eq_false_iff_ne]
          exact fun h => hne h.symm
        have hp1 : (p.1 == k') = false := by
          have : p.1 = k := by simpa using hp
          rw [this]
          exact hk
        simp only [List.map_cons, if_pos hp]
        rw [List.find?_cons_of_neg _ (by simp_all),
          List.find?_cons_of_neg _ (by simp [hp1]),
          find?_pair_map_set k k' v hne rest]
      · simp only [List.map_cons, if_neg hp]
        by_cases hp' : (p.1 == k') = true
        · rw [List.find?_cons_of_pos _ (by simpa using hp'),
            List.find?_cons_of_pos _ (by simpa using hp')]
        · rw [List.find?_cons_of_neg _ (by simpa using hp'),
            List.find?_cons_of_neg _ (by simpa using hp'),
            find?_pair_map_set k k' v hne rest]

theorem find?_pair_map_set_self (k : String) (v : SearchResult) :
    ∀ m : List (String × SearchResult),
      m.any (fun p => p.1 == k) = true →
      ((m.map (fun p => if p.1 == k then (k, v) else p)).find?
        (fun p => p.1 == k)) = some (k, v)
  | [], h => by simp at h
  | p :: rest, h => by
      by_cases hp : (p.1 == k) = true
      · simp only [List.map_cons, if_pos hp]
        rw [List.find?_cons_of_pos _ (by simp)]
      · have hrest : rest.any (fun p => p.1 == k) = true := by
          simpa [List.any_cons, hp] using h
        simp only [List.map_cons, if_neg hp]
        rw [List.find?_cons_of_neg _ (by simpa using hp)]
        exact find?_pair_map_set_self k v rest hrest

theorem find?_append_single_ne (k k' : String) (v : SearchResult)
    (hne : k' ≠ k) :
    ∀ m : List (String × SearchResult),
      ((m ++ [(k, v)]).find? (fun p => p.1 == k')) =
        m.find? (fun p => p.1 == k')
  | [] => by
      simp only [List.nil_append]
      rw [List.find?_cons_of_neg _ (by simp; exact fun h => hne h.symm)]
  | p :: rest => by
      by_cases hp : (p.1 == k') = true
      · simp only [List.cons_append]
        rw [List.find?_cons_of_pos _ (by simpa using hp),
          List.find?_cons_of_pos _ (by simpa using hp)]
      · simp only [List.cons_append]
        rw [List.find?_cons_of_neg _ (by simpa using hp),
          List.find?_cons_of_neg _ (by simpa using hp),
          find?_append_single_ne k k' v hne rest]

theorem find?_append_single_self (k : String) (v : SearchResult) :
    ∀ m : List (String × SearchResult),
      m.find? (fun p => p.1 == k) = none →
      ((m ++ [(k, v)]).find? (fun p => p.1 == k)) = some (k, v)
  | [], _ => by
      simp only [List.nil_append]
      rw [List.find?_cons_of_pos _ (by simp)]
  | p :: rest, h => by
      have hp : ¬((p.1 == k) = true) := by
        intro hp
        rw [List.find?_cons_of_pos _ (by simpa using hp)] at h
        simp at h
      have hrest : rest.find? (fun p => p.1 == k) = none := by
        rwa [List.find?_cons_of_neg _ (by simpa using hp)] at h
      simp only [List.cons_append]
      rw [List.find?_cons_of_neg _ (by simpa using hp)]
      exact find?_append_single_self k v rest hrest

theorem mapGet_mapSet_self (m : List (String × SearchResult)) (k : String)
    (v : SearchResult) : mapGet (mapSet m k v) k = some v := by
  unfold mapGet mapSet
  by_cases hany : m.any (fun p => p.1 == k) = true
  · rw [if_pos hany, find?_pair_map_set_self k v m hany]
    rfl
  · rw [if_neg hany]
    have hnone : m.find? (fun p => p.1 == k) = none := by
      rw [List.find?_eq_none]
      intro p hp hc
      exact hany (List.any_eq_true.mpr ⟨p, hp, hc⟩)
    rw [find?_append_single_self k v m hnone]
    rfl

theorem mapGet_mapSet_ne (m : List (String × SearchResult)) (k k' : String)
    (v : SearchResult) (hne : k' ≠ k) :
    mapGet (mapSet m k v) k' = mapGet m k' := by
  unfold mapGet mapSet
  by_cases hany : m.any (fun p => p.1 == k) = true
  · rw [if_pos hany, find?_pair_map_set k k' v hne m]
  · rw [if_neg hany, find?_append_single_ne k k' v hne m]

theorem mapGet_append_self (m : List (String × SearchResult)) (k : String)
    (v : SearchResult) (h : mapGet m k = none) :
    mapGet (m ++ [(k, v)]) k = some v := by
  unfold mapGet at h ⊢
  have hnone : m.find? (fun p => p.1 == k) = none := by
    cases hfind : m.find? (fun p => p.1 == k) with
    | none => rfl
    | some p => rw [hfind] at h; simp at h
  rw [find?_append_single_self k v m hnone]
  rfl

theorem mapGet_append_ne (m : List (String × SearchResult)) (k k' : String)
    (v : SearchResult) (hne : k' ≠ k) :
    mapGet (m ++ [(k, v)]) k' = mapGet m k' := by
  unfold mapGet
  rw [find?_append_single_ne k k' v hne m]

/-! ### Lookup characterization of the two hybrid loops -/

theorem mapGet_hybridKeywordLoop_not_mem (keywordWeight : ℚ) (k : String) :
    ∀ (keywordResults : List SearchResult)
      (combined : List (String × SearchResult)),
      (∀ r ∈ keywordResults, hybridKey r ≠ k) →
      mapGet (hybridKeywordLoop keywordWeight keywordResults combined) k =
        mapGet combined k
  | [], combined, _ => rfl
  | r :: rest, combined, h => by
      rw [hybridKeywordLoop,
        mapGet_hybridKeywordLoop_not_mem keywordWeight k rest _
          (fun x hx => h x (List.mem_cons_of_mem _ hx)),
        mapGet_mapSet_ne _ _ _ _ (fun hc => h r (List.mem_cons_self _ _) hc.symm)]

theorem mapGet_hybridKeywordLoop_mem (keywordWeight : ℚ) :
    ∀ (keywordResults : List SearchResult)
      (combined : List (String × SearchResult)) (r : SearchResult),
      (keywordResults.map hybridKey).Nodup →
      r ∈ keywordResults →
      mapGet (hybridKeywordLoop keywordWeight keywordResults combined)
          (hybridKey r) =
        some { r with score := r.keywordScore.getD 0 * keywordWeight
                      mode := SearchMode.hybrid }
  | [], _, r, _, hr => by simp at hr
  | r' :: rest, combined, r, hnd, hr => by
      rcases List.mem_cons.mp hr with hcase | hcase
      · subst hcase
        have hkey : ∀ x ∈ rest, hybridKey x ≠ hybridKey r := by
          intro x hx hc
          have := (List.nodup_cons.mp hnd).1
          exact this (by rw [← hc]; exact List.mem_map_of_mem hybridKey hx)
        rw [hybridKeywordLoop,
          mapGet_hybridKeywordLoop_not_mem keywordWeight (hybridKey r) rest _
            hkey,
          mapGet_mapSet_self]
      · rw [hybridKeywordLoop]
        exact mapGet_hybridKeywordLoop_mem keywordWeight rest _ r
          (List.nodup_cons.mp hnd).2 hcase

theorem mapGet_hybridSemanticLoop_not_mem (semanticWeight : ℚ) (k : String) :
    ∀ (semanticResults : List SearchResult)
      (combined : List (String × SearchResult)),
      (∀ s ∈ semanticResults, hybridKey s ≠ k) →
      mapGet (hybridSemanticLoop semanticWeight semanticResults combined) k =
        mapGet combined k
  | [], _, _ => rfl
  | s :: rest, combined, h => by
      simp only [hybridSemanticLoop]
      cases hget : mapGet combined (hybridKey s) with
      | some existing =>
          rw [mapGet_hybridSemanticLoop_not_mem semanticWeight k rest _
              (fun x hx => h x (List.mem_cons_of_mem _ hx)),
            mapGet_mapSet_ne _ _ _ _
              (fun hc => h s (List.mem_cons_self _ _) hc.symm)]
      | none =>
          rw [mapGet_hybridSemanticLoop_not_mem semanticWeight k rest _
              (fun x hx => h x (List.mem_cons_of_mem _ hx)),
            mapGet_append_ne _ _ _ _
              (fun hc => h s (List.mem_cons_self _ _) hc.symm)]

theorem mapGet_hybridSemanticLoop_mem_existing (semanticWeight : ℚ) :
    ∀ (semanticResults : List SearchResult)
      (combined : List (String × SearchResult)) (s : SearchResult)
      (existing : SearchResult),
      (semanticResults.map hybridKey).Nodup →
      s ∈ semanticResults →
      mapGet combined (hybridKey s) = some existing →
      mapGet (hybridSemanticLoop semanticWeight semanticResults combined)
          (hybridKey s) =
        some { existing with
               semanticScore := s.semanticScore
               score := existing.score +
                 s.semanticScore.getD 0 * semanticWeight }
  | [], _, s, _, _, hs, _ => by simp at hs
  | s' :: rest, combined, s, existing, hnd, hs, hget => by
      rcases List.mem_cons.mp hs with hcase | hcase
      · subst hcase
        have hkey : ∀ x ∈ rest, hybridKey x ≠ hybridKey s := by
          intro x hx hc
          have := (List.nodup_cons.mp hnd).1
          exact this (by rw [← hc]; exact List.mem_map_of_mem hybridKey hx)
        simp only [hybridSemanticLoop, hget]
        rw [mapGet_hybridSemanticLoop_not_mem semanticWeight (hybridKey s)
            rest _ hkey,
          mapGet_mapSet_self]
      · have hkey : hybridKey s' ≠ hybridKey s := by
          intro hc
          have := (List.nodup_cons.mp hnd).1
          exact this (by rw [hc]; exact List.mem_map_of_mem hybridKey hcase)
        simp only [hybridSemanticLoop]
        cases hget' : mapGet combined (hybridKey s') with
        | some ex' =>
            exact mapGet_hybridSemanticLoop_mem_existing semanticWeight rest _
              s existing (List.nodup_cons.mp hnd).2 hcase
              (by exact (mapGet_mapSet_ne combined (hybridKey s')
                (hybridKey s) _ (Ne.symm hkey)).trans hget)
        | none =>
            exact mapGet_hybridSemanticLoop_mem_existing semanticWeight rest _
              s existing (List.nodup_cons.mp hnd).2 hcase
              (by exact (mapGet_append_ne combined (hybridKey s')
                (hybridKey s) _ (Ne.symm hkey)).trans hget)

theorem mapGet_hybridSemanticLoop_mem_new (semanticWeight : ℚ) :
    ∀ (semanticResults : List SearchResult)
      (combined : List (String × SearchResult)) (s : SearchResult),
      (semanticResults.map hybridKey).Nodup →
      s ∈ semanticResults →
      mapGet combined (hybridKey s) = none →
      mapGet (hybridSemanticLoop semanticWeight semanticResults combined)
          (hybridKey s) =
        some { s with
               keywordScore := some 0
               score := s.semanticScore.getD 0 * semanticWeight
               mode := SearchMode.hybrid }
  | [], _, s, _, hs, _ => by simp at hs
  | s' :: rest, combined, s, hnd, hs, hget => by
      rcases List.mem_cons.mp hs with hcase | hcase
      · subst hcase
        have hkey : ∀ x ∈ rest, hybridKey x ≠ hybridKey s := by
          intro x hx hc
          have := (List.nodup_cons.mp hnd).1
          exact this (by rw [← hc]; exact List.mem_map_of_mem hybridKey hx)
        simp only [hybridSemanticLoop, hget]
        rw [mapGet_hybridSemanticLoop_not_mem semanticWeight (hybridKey s)
            rest _ hkey,
          mapGet_append_self _ _ _ hget]
      · have hkey : hybridKey s' ≠ hybridKey s := by
          intro hc
          have := (List.nodup_cons.mp hnd).1
          exact this (by rw [hc]; exact List.mem_map_of_mem hybridKey hcase)
        simp only [hybridSemanticLoop]
        cases hget' : mapGet combined (hybridKey s') with
        | some ex' =>
            exact mapGet_hybridSemanticLoop_mem_new semanticWeight rest _
              s (List.nodup_cons.mp hnd).2 hcase
              (by exact (mapGet_mapSet_ne combined (hybridKey s')
                (hybridKey s) _ (Ne.symm hkey)).trans hget)
        | none =>
            exact mapGet_hybridSemanticLoop_mem_new semanticWeight rest _
              s (List.nodup_cons.mp hnd).2 hcase
              (by exact (mapGet_append_ne combined (hybridKey s')
                (hybridKey s) _ (Ne.symm hkey)).trans hget)

/-! ### Key injectivity of the composite `repo:path` key -/

theorem append_around_sep {c : Char} :
    ∀ {l1 l2 r1 r2 : List Char}, c ∉ l1 → c ∉ l2 →
      l1 ++ c :: r1 = l2 ++ c :: r2 → l1 = l2 ∧ r1 = r2
  | [], [], r1, r2, _, _, h => ⟨rfl, by simpa using h⟩
  | [], x :: l2, r1, r2, _, h2, h => by
      simp only [List.nil_append, List.cons_append, List.cons.injEq] at h
      exact absurd (h.1 ▸ List.mem_cons_self x l2) (by simp_all)
  | x :: l1, [], r1, r2, h1, _, h => by
      simp only [List.nil_append, List.cons_append, List.cons.injEq] at h
      exact absurd (h.1 ▸ List.mem_cons_self x l1) (by simp_all)
  | x :: l1, y :: l2, r1, r2, h1, h2, h => by
      simp only [List.cons_append, List.cons.injEq] at h
      have ih := append_around_sep (c := c)
        (fun hc => h1 (List.mem_cons_of_mem _ hc))
        (fun hc => h2 (List.mem_cons_of_mem _ hc)) h.2
      exact ⟨by rw [h.1, ih.1], ih.2⟩

theorem hybridKey_eq_iff (a b : SearchResult)
    (ha : ':' ∉ a.repo.data) (hb : ':' ∉ b.repo.data) :
    hybridKey a = hybridKey b ↔ (a.repo = b.repo ∧ a.path = b.path) := by
  constructor
  · intro h
    have hd : a.repo.data ++ ':' :: a.path.data =
        b.repo.data ++ ':' :: b.path.data := by
      have hdd := congrArg String.data h
      have hcolon : ":".data = [':'] := rfl
      have happ : ∀ x y : String, (x ++ y).data = x.data ++ y.data :=
        fun _ _ => rfl
      simpa [hybridKey, happ, hcolon, List.append_assoc] using hdd
    have := append_around_sep ha hb hd
    exact ⟨string_data_injective this.1, string_data_injective this.2⟩
  · intro h
    unfold hybridKey
    rw [h.1, h.2]

/-! ### Claim C4 -/

/-- C4. Hybrid union: `hybridSearch` combines the two sub-searches into the
insertion-ordered map built by the two loops (with default weights 0.4
keyword / 0.6 semantic and default limit 20), sorts the union descending by
score and truncates to the limit. In the union (keyed by repository and
path, for colon-free repository names): a hit present only on the keyword
side keeps score `keywordScore * keywordWeight` with no semantic
contribution, a hit present only on the semantic side keeps score
`semanticScore * semanticWeight`, and a hit present on both sides gets
`keywordScore * keywordWeight + semanticScore * semanticWeight`. -/
theorem c4_hybrid_union :
    (∀ (ctx : SearchCtx) (query : String) (options : SearchOptions),
        (hybridSearch ctx query options).1 =
          (List.insertionSort scoreGe
            ((hybridSemanticLoop (options.semanticWeight.getD (3 / 5))
                (semanticSearch ctx query options).1
                (hybridKeywordLoop (options.keywordWeight.getD (2 / 5))
                  (keywordSearch ctx query options).1 [])).map
              (fun p => p.2))).take (options.limit.getD 20)) ∧
    (∀ (keywordWeight semanticWeight : ℚ)
        (kw sem : List SearchResult) (r : SearchResult),
        (kw.map hybridKey).Nodup → r ∈ kw →
        (':' ∉ r.repo.data) → (∀ s ∈ sem, ':' ∉ s.repo.data) →
        (∀ s ∈ sem, ¬(s.repo = r.repo ∧ s.path = r.path)) →
        mapGet (hybridSemanticLoop semanticWeight sem
            (hybridKeywordLoop keywordWeight kw [])) (hybridKey r) =
          some { r with
                 score := r.keywordScore.getD 0 * keywordWeight
                 mode := SearchMode.hybrid }) ∧
    (∀ (keywordWeight semanticWeight : ℚ)
        (kw sem : List SearchResult) (r s : SearchResult),
        (kw.map hybridKey).Nodup → (sem.map hybridKey).Nodup →
        r ∈ kw → s ∈ sem → s.repo = r.repo → s.path = r.path →
        mapGet (hybridSemanticLoop semanticWeight sem
            (hybridKeywordLoop keywordWeight kw [])) (hybridKey r) =
          some { r with
                 semanticScore := s.semanticScore
                 score := r.keywordScore.getD 0 * keywordWeight +
                   s.semanticScore.getD 0 * semanticWeight
                 mode := SearchMode.hybrid }) ∧
    (∀ (keywordWeight semanticWeight : ℚ)
        (kw sem : List SearchResult) (s : SearchResult),
        (sem.map hybridKey).Nodup → s ∈ sem →
        (':' ∉ s.repo.data) → (∀ r ∈ kw, ':' ∉ r.repo.data) →
        (∀ r ∈ kw, ¬(r.repo = s.repo ∧ r.path = s.path)) →
        mapGet (hybridSemanticLoop semanticWeight sem
            (hybridKeywordLoop keywordWeight kw [])) (hybridKey s) =
          some { s with
                 keywordScore := some 0
                 score := s.semanticScore.getD 0 * semanticWeight
                 mode := SearchMode.hybrid }) ∧
    (∀ (ctx : SearchCtx) (query : String) (options : SearchOptions),
        List.Sorted scoreGe (hybridSearch ctx query options).1 ∧
        (hybridSearch ctx query options).1.length ≤ options.limit.getD 20) := by
  refine ⟨fun _ _ _ => rfl, ?_, ?_, ?_, ?_⟩
  · intro keywordWeight semanticWeight kw sem r hnd hr hcolR hcolS hdist
    have hkdist : ∀ s ∈ sem, hybridKey s ≠ hybridKey r := by
      intro s hs hc
      have := (hybridKey_eq_iff s r (hcolS s hs) hcolR).mp hc
      exact hdist s hs this
    rw [mapGet_hybridSemanticLoop_not_mem semanticWeight (hybridKey r) sem _
        hkdist,
      mapGet_hybridKeywordLoop_mem keywordWeight kw [] r hnd hr]
  · intro keywordWeight semanticWeight kw sem r s hndk hnds hr hs hrepo hpath
    have hkey : hybridKey s = hybridKey r := by
      unfold hybridKey
      rw [hrepo, hpath]
    have h1 := mapGet_hybridKeywordLoop_mem keywordWeight kw [] r hndk hr
    have h2 := mapGet_hybridSemanticLoop_mem_existing semanticWeight sem
      (hybridKeywordLoop keywordWeight kw []) s _ hnds hs
      (by rw [hkey]; exact h1)
    rw [← hkey]
    exact h2
  · intro keywordWeight semanticWeight kw sem s hnds hs hcolS hcolK hdist
    have hkdist : ∀ r ∈ kw, hybridKey r ≠ hybridKey s := by
      intro r hr hc
      have := (hybridKey_eq_iff r s (hcolK r hr) hcolS).mp hc
      exact hdist r hr this
    have h0 : mapGet (hybridKeywordLoop keywordWeight kw []) (hybridKey s) =
        none := by
      rw [mapGet_hybridKeywordLoop_not_mem keywordWeight (hybridKey s) kw []
          hkdist]
      rfl
    exact mapGet_hybridSemanticLoop_mem_new semanticWeight sem _ s hnds hs h0
  · intro ctx query options
    constructor
    · have hsorted := List.sorted_insertionSort scoreGe
        ((hybridSemanticLoop (options.semanticWeight.getD (3 / 5))
            (semanticSearch ctx query options).1
            (hybridKeywordLoop (options.keywordWeight.getD (2 / 5))
              (keywordSearch ctx query options).1 [])).map
          (fun p => p.2))
      exact List.Pairwise.sublist (List.take_sublist _ _) hsorted
    · calc (hybridSearch ctx query options).1.length
          = min (options.limit.getD 20) (List.insertionSort scoreGe
              ((hybridSemanticLoop (options.semanticWeight.getD (3 / 5))
                  (semanticSearch ctx query options).1
                  (hybridKeywordLoop (options.keywordWeight.getD (2 / 5))
                    (keywordSearch ctx query options).1 [])).map
                (fun p => p.2))).length := List.length_take _ _
        _ ≤ options.limit.getD 20 := Nat.min_le_left _ _

/-- C4 keyword-side hit for the witness. -/
def c4KwHit : SearchResult :=
  { repo := "r", path := "a.ts", filename := "a.ts", snippet := none,
    keywordScore := some (1 / 2), semanticScore := none, score := 1 / 2,
    mode := SearchMode.keyword }

/-- C4 semantic-side hit (different path) for the witness. -/
def c4SemHit : SearchResult :=
  { repo := "r", path := "b.ts", filename := "b.ts", snippet := none,
    keywordScore := none, semanticScore := some (1 / 3), score := 1 / 3,
    mode := SearchMode.semantic }

/-- C4, witness: a path matched only by keyword search gets hybrid score
exactly `keywordScore * keywordWeight` at the default weights. -/
theorem c4_hybrid_union_witness :
    mapGet (hybridSemanticLoop (3 / 5) [c4SemHit]
        (hybridKeywordLoop (2 / 5) [c4KwHit] [])) (hybridKey c4KwHit) =
      some { c4KwHit with
             score := c4KwHit.keywordScore.getD 0 * (2 / 5)
             mode := SearchMode.hybrid } := by
  refine c4_hybrid_union.2.1 (2 / 5) (3 / 5) [c4KwHit] [c4SemHit] c4KwHit
    (List.nodup_singleton _) (List.mem_singleton.mpr rfl) (by decide) ?_ ?_
  · intro s hs
    have hs' : s = c4SemHit := by simpa using hs
    subst hs'
    decide
  · intro s hs
    have hs' : s = c4SemHit := by simpa using hs
    subst hs'
    decide

end RepoGrep
